import Mathlib

/-!
Verification of the `cell_lists` library (`src/cell_lists/core.py`).

The development shallowly embeds the four operations of the library:

* `add_to_cells`  (grid construction and counting-sort bucketing of points),
* `neighboring_cells` (half-neighborhood of flattened cell offsets),
* `find_points_in_cell` / `iter_nearest_neighbors` (candidate pair enumeration),
* `partition_cells` (cost-balanced splitting of the cell-index range).

Modelling conventions:

* `float64` coordinates are modelled as exact rationals `ℚ`; the numpy cast
  `np.int64(x / cell_size)` (C truncation toward zero of the quotient) is
  modelled exactly as `Int.tdiv (x.num * cs.den) (x.den * cs.num)`, which is
  the truncation toward zero of the rational `x / cs`.  (We avoid the `ℚ`
  division operator because `Rat.inv` is irreducible and would block kernel
  evaluation; the fraction `(x.num * cs.den) / (x.den * cs.num)` is the same
  rational number.)
* numpy arrays whose entries are only ever addressed at proven-in-range
  indices are modelled as total functions `ℤ → ℤ` (reads outside the
  allocated range never occur on the runs the theorems quantify over; this
  is proved in the claim about ghost-cell safety).
* The two reads of `add_to_cells` that the code performs *before* any
  bounds can be established — the initial `points[0, :]` read and the
  `points[i, 0]` read of the cell computation — are modelled as checked:
  a zero-row or zero-column input yields `Except.error .outOfBounds`,
  mirroring the fact that the jitted code reads out of bounds there
  (there is no precondition assert for emptiness in the source).
* `partition_cells` allocates `interactions_cumsum` with `np.empty_like`
  and *skips* cells with zero count, so entries at empty cells keep their
  uninitialized (garbage) contents; the model takes the garbage contents as
  an explicit parameter `g : ℕ → ℤ`.  The scan loop `while part_index < n`
  has no bound on `i`, so it can run past the end of the array; the model
  returns `none` at the point where the code would read out of bounds.
* Python generators are modelled as the list of yielded values in order.
-/

namespace CellLists

/-- `np.int64 q` for an exact rational quotient `x / cs`: C-style truncation
toward zero, computed as the t-division of the integer fraction
`(x.num * cs.den) / (x.den * cs.num)` (equal to `x / cs` as a rational). -/
def cellIndexOf (cs x : ℚ) : ℤ := Int.tdiv (x.num * (cs.den : ℤ)) ((x.den : ℤ) * cs.num)

/-- Per-row cell coordinates: `(points[i, :] / cell_size).astype(np.int64)`. -/
def cellOf (cs : ℚ) (row : List ℚ) : List ℤ := row.map (fun x => cellIndexOf cs x)

/-- The per-dimension minimum loop of `add_to_cells`: start from row 0 and
fold the elementwise `min` over the remaining rows. -/
def xminL (pts : List (List ℚ)) (cs : ℚ) : List ℤ :=
  pts.tail.foldl (fun acc r => List.zipWith min acc (cellOf cs r)) (cellOf cs (pts.headD []))

/-- The per-dimension maximum loop of `add_to_cells`. -/
def xmaxL (pts : List (List ℚ)) (cs : ℚ) : List ℤ :=
  pts.tail.foldl (fun acc r => List.zipWith max acc (cellOf cs r)) (cellOf cs (pts.headD []))

/-- `grid_shape = (x_max - x_min) + 1 + 2` (the `+2` is the ghost padding). -/
def gridShape (pts : List (List ℚ)) (cs : ℚ) : List ℤ :=
  List.zipWith (fun mx mn => mx - mn + 3) (xmaxL pts cs) (xminL pts cs)

/-- `grid_size = np.prod(grid_shape)`. -/
def gridSize (pts : List (List ℚ)) (cs : ℚ) : ℤ := (gridShape pts cs).prod

/-- The inner Horner loop shared by the cell-id computation of `add_to_cells`
and by `_neighboring_cells`: starting from an accumulator, repeatedly do
`l = l * radix + digit` over `zip(digits, radices)`. -/
def hornerA (sh t : List ℤ) (acc : ℤ) : ℤ :=
  (t.zip sh).foldl (fun l p => l * p.2 + p.1) acc

/-- Mixed-radix (row-major, most-significant dimension first) flattening of a
coordinate tuple `t` with the strides of `sh`:
`l = t[0]; for j in 1..: l = l * sh[j] + t[j]`. -/
def mixedRadix (sh t : List ℤ) : ℤ := hornerA sh.tail t.tail (t.headD 0)

/-- Normalized per-dimension cell coordinate of one row:
`np.int64(points[i, j] / cell_size) - x_min[j] + 1`. -/
def normCoord (pts : List (List ℚ)) (cs : ℚ) (row : List ℚ) : List ℤ :=
  List.zipWith (fun c mn => c - mn + 1) (cellOf cs row) (xminL pts cs)

/-- The `cells` array of `add_to_cells`: the flattened cell id of every row. -/
def cellsList (pts : List (List ℚ)) (cs : ℚ) : List ℤ :=
  pts.map (fun r => mixedRadix (gridShape pts cs) (normCoord pts cs r))

/-- Pointwise update of a function-modelled array. -/
def update (f : ℤ → ℤ) (i v : ℤ) : ℤ → ℤ := fun x => if x = i then v else f x

/-- The counting pass over an arbitrary cell-id list:
`cells_count = np.zeros(grid_size)` then `for l in cells: cells_count[l] += 1`. -/
def countRun (cells : List ℤ) : ℤ → ℤ :=
  cells.foldl (fun f l => update f l (f l + 1)) (fun _ => 0)

/-- The counting pass of `add_to_cells`. -/
def countsF (pts : List (List ℚ)) (cs : ℚ) : ℤ → ℤ := countRun (cellsList pts cs)

/-- `np.cumsum(cells_count)`: inclusive prefix sums of the counts. -/
def cumsumF (cc : ℤ → ℤ) : ℤ → ℤ :=
  fun l => ∑ k in Finset.range (l.toNat + 1), cc (k : ℤ)

/-- One iteration of the placement loop of `add_to_cells`:
`offset = cells_offset[l]; points_indices[offset - 1] = i; cells_offset[l] -= 1`. -/
def placeStep (st : (ℤ → ℤ) × (ℤ → ℤ)) (p : ℕ × ℤ) : (ℤ → ℤ) × (ℤ → ℤ) :=
  (update st.1 (st.2 p.2 - 1) (p.1 : ℤ), update st.2 p.2 (st.2 p.2 - 1))

/-- The placement loop over an arbitrary cell-id list, run over
`enumerate(cells)` starting from the freshly allocated `points_indices` and
the cumulative-sum offsets.  (`points_indices` is `np.empty`; every slot is
provably written exactly once, so the initial contents `0` are unobservable.) -/
def placeRun (cells : List ℤ) : (ℤ → ℤ) × (ℤ → ℤ) :=
  cells.enum.foldl placeStep (fun _ => 0, cumsumF (countRun cells))

/-- The placement loop of `add_to_cells`. -/
def placed (pts : List (List ℚ)) (cs : ℚ) : (ℤ → ℤ) × (ℤ → ℤ) :=
  placeRun (cellsList pts cs)

/-- Failure modes of the jitted kernels: a failed `assert`, or a memory
access outside the bounds of an array. -/
inductive Err where
  | assertionFailed : Err
  | outOfBounds : Err
deriving DecidableEq

/-- The tuple returned by `add_to_cells`. -/
structure CellGrid where
  points_indices : ℤ → ℤ
  cells_count : ℤ → ℤ
  cells_offset : ℤ → ℤ
  grid_shape : List ℤ

/-- `add_to_cells(points, cell_size)`.  The source asserts
`cell_size > 0 and points.ndim == 2` (the 2-d shape is enforced here by the
`List (List ℚ)` representation together with the rectangularity hypotheses of
the theorems).  There is no assert on the number of rows: with zero rows the
code reads `points[0, :]` out of bounds, and with zero columns it reads
`points[i, 0]` out of bounds inside the cell loop; both are modelled as
`Except.error .outOfBounds`. -/
def add_to_cells (pts : List (List ℚ)) (cs : ℚ) : Except Err CellGrid :=
  if ¬ 0 < cs then .error .assertionFailed
  else if pts = [] then .error .outOfBounds
  else if (pts.headD []).length = 0 then .error .outOfBounds
  else .ok ⟨(placed pts cs).1, countsF pts cs, (placed pts cs).2, gridShape pts cs⟩

/-- `tuple(range(-distance, distance + 1))`. -/
def baseRange (r : ℕ) : List ℤ := (List.range (2 * r + 1)).map (fun (k : ℕ) => (k : ℤ) - (r : ℤ))

/-- `itertools.product(*iterables)` in lexicographic order (leftmost factor
varies slowest), on lists of integers. -/
def cartProd : List (List ℤ) → List (List ℤ)
  | [] => [[]]
  | xs :: rest => xs.flatMap (fun x => (cartProd rest).map (x :: ·))

/-- `itertools.product(*len(grid_shape) * (base,))`: all `D`-tuples with
entries in `{-r, …, r}`. -/
def prodAll (D r : ℕ) : List (List ℤ) := cartProd (List.replicate D (baseRange r))

/-- `prod[len(prod) // 2 + 1:]`: the tuples strictly after the middle element
of the enumeration. -/
def halfTail (D r : ℕ) : List (List ℤ) :=
  (prodAll D r).drop ((prodAll D r).length / 2 + 1)

/-- `neighboring_cells(grid_shape, distance)`: flatten each kept tuple with
the mixed-radix strides of `grid_shape` (`_neighboring_cells`).  The source
asserts `isinstance(distance, int) and distance >= 1`; the theorems carry
`1 ≤ r` as a hypothesis. -/
def neighboring_cells (gs : List ℤ) (r : ℕ) : List ℤ :=
  (halfTail gs.length r).map (fun t => mixedRadix gs t)

/-- The contiguous segment `[f start, f (start+1), …]` of length `len` of a
function-modelled array: used for `points_indices[start:end]`. -/
def listSeg (f : ℤ → ℤ) (start : ℤ) (len : ℕ) : List ℤ :=
  (List.range len).map (fun (k : ℕ) => f (start + (k : ℤ)))

/-- `find_points_in_cell(cell_index, points_indices, cells_count, cells_offset)`:
`points_indices[start : start + cells_count[cell_index]]` with
`start = cells_offset[cell_index]`. -/
def find_points_in_cell (cell_index : ℤ) (pi cc co : ℤ → ℤ) : List ℤ :=
  listSeg pi (co cell_index) (cc cell_index).toNat

/-- The intra-cell double loop of `iter_nearest_neighbors`:
`for k, i in enumerate(points_cur[:-1]): for j in points_cur[k+1:]: yield i, j`. -/
def intra : List ℤ → List (ℤ × ℤ)
  | [] => []
  | i :: rest => rest.map (fun j => (i, j)) ++ intra rest

/-- `iter_nearest_neighbors(cell_indices, neigh_cells, points_indices,
cells_count, cells_offset)` as the list of yielded pairs, in order. -/
def iter_nearest_neighbors (cell_indices neigh_cells : List ℤ)
    (pi cc co : ℤ → ℤ) : List (ℤ × ℤ) :=
  cell_indices.flatMap (fun cur_cell =>
    if cc cur_cell = 0 then []
    else
      intra (find_points_in_cell cur_cell pi cc co) ++
      neigh_cells.flatMap (fun neigh_cell =>
        (find_points_in_cell cur_cell pi cc co).flatMap (fun i =>
          (find_points_in_cell (cur_cell + neigh_cell) pi cc co).map (fun j => (i, j)))))

/-- `np.int64(np.ceil(total / n))` for integer `total` and `n > 0`: the exact
ceiling of the rational quotient, written with floor division. -/
def ceilDiv (a b : ℤ) : ℤ := -(Int.fdiv (-a) b)

/-- The cross-cost inner loop of `partition_cells`:
`for j in neigh_cells: interactions_total += count * cells_count[i + j]`.
A read `cells_count[i + j]` with `-len ≤ i + j < 0` wraps around as in
numpy; one outside `[-len, len)` is out of bounds and yields `none`. -/
def crossSum (cc : List ℤ) (i : ℕ) (count : ℤ) (neigh : List ℤ) : Option ℤ :=
  neigh.foldl (fun acc o =>
    acc.bind (fun s =>
      let idx : ℤ := (i : ℤ) + o
      if 0 ≤ idx ∧ idx < (cc.length : ℤ) then some (s + count * cc.getD idx.toNat 0)
      else if -(cc.length : ℤ) ≤ idx ∧ idx < 0 then
        some (s + count * cc.getD ((cc.length : ℤ) + idx).toNat 0)
      else none)) (some 0)

/-- The cost-accumulation loop of `partition_cells`.  `interactions_cumsum`
starts as the uninitialized `np.empty_like(cells_count)` contents
`(List.range len).map g` and is written only at cells with nonzero count
(cells with `count == 0` are skipped by `continue`). -/
def costFold (cc neigh : List ℤ) (g : ℕ → ℤ) : Option (ℤ × List ℤ) :=
  cc.enum.foldl (fun st p =>
    st.bind (fun tic =>
      if p.2 = 0 then some tic
      else (crossSum cc p.1 p.2 neigh).map (fun s =>
        let t := tic.1 + (p.2 - 1) ^ 2 + s
        (t, tic.2.set p.1 t))))
    (some (0, (List.range cc.length).map g))

/-- The boundary-scan loop of `partition_cells`:
`while part_index < n: if interactions_cumsum[i] >= part_index * size: …; i += 1`.
`i` is unbounded in the source; once it passes the end of the array the code
reads out of bounds, modelled by `none`. -/
def scanGo (size n : ℤ) : ℤ → ℕ → List ℤ → Option (List ℤ)
  | p, _, [] => if n ≤ p then some [] else none
  | p, i, c :: rest =>
    if n ≤ p then some []
    else if c ≥ p * size then (scanGo size n (p + 1) (i + 1) rest).map (((i : ℤ)) :: ·)
    else scanGo size n p (i + 1) rest

/-- `partition_cells(n, cells_count, neigh_cells)` with explicit garbage
contents `g` for the `np.empty_like` allocation.  The source asserts `n > 0`. -/
def partition_cells (n : ℤ) (cc neigh : List ℤ) (g : ℕ → ℤ) : Option (List ℤ) :=
  if n ≤ 0 then none
  else (costFold cc neigh g).bind (fun tic =>
    let size := ceilDiv tic.1 n
    (scanGo size n 1 0 tic.2).map (fun mids => (0 : ℤ) :: mids ++ [(cc.length : ℤ)]))

/-- Chebyshev distance between two cell-coordinate tuples: the maximum
per-dimension absolute difference. -/
def chebDist (a b : List ℤ) : ℤ := (List.zipWith (fun u v => |u - v|) a b).foldr max 0

/-- Modelled from the spec: the spec (§4.1, and the module docstring of
`core.py`) prescribes `floor(coord / cell_size)` as the per-dimension cell
coordinate.  This is the floor of the same rational quotient
`(x.num * cs.den) / (x.den * cs.num)`, for comparison with `cellIndexOf`
(which truncates toward zero like the actual `np.int64` cast). -/
def cellFloorOf (cs x : ℚ) : ℤ := Int.fdiv (x.num * (cs.den : ℤ)) ((x.den : ℤ) * cs.num)

/-- The spec scenario input: points `[(0,0), (0.1,0), (2,2), (2.1,2)]`. -/
def demoPts : List (List ℚ) := [[0, 0], [mkRat 1 10, 0], [2, 2], [mkRat 21 10, 2]]

/-- Run the full pipeline on `demoPts` with `cell_size = 1`, `radius = 1`:
returns the grid shape, the sum of `cells_count`, and the enumerated pairs
over all cell indices. -/
def demoRun : Option (List ℤ × ℤ × List (ℤ × ℤ)) :=
  (add_to_cells demoPts 1).toOption.map (fun g =>
    (g.grid_shape,
     ∑ l in Finset.range (gridSize demoPts 1).toNat, g.cells_count (l : ℤ),
     iter_nearest_neighbors
       ((List.range (gridSize demoPts 1).toNat).map (fun (k : ℕ) => (k : ℤ)))
       (neighboring_cells g.grid_shape 1) g.points_indices g.cells_count g.cells_offset))

/-- The per-cell intra cost `(n_c - 1)^2` of the claimed cost model, summed
over the half-open cell range `[a, b)` (there are no neighbor offsets in the
C10 scenario, so this is the whole claimed estimated cost of a range). -/
def intraCostSum (cc : List ℤ) (a b : ℕ) : ℤ :=
  (((cc.drop a).take (b - a)).map (fun c => (c - 1) ^ 2)).sum

/-- Digits lying in the full box `[0, sh)` of the grid. -/
def FullBox (t sh : List ℤ) : Prop := List.Forall₂ (fun x s => 0 ≤ x ∧ x < s) t sh

/-- Digits lying in the interior box `[1, sh - 2]` (inside the ghost padding). -/
def Interior (t sh : List ℤ) : Prop := List.Forall₂ (fun x s => 1 ≤ x ∧ x ≤ s - 2) t sh

/-- Offsets with every entry in `{-1, 0, 1}`. -/
def UnitBox (t : List ℤ) : Prop := ∀ x ∈ t, -1 ≤ x ∧ x ≤ 1

/-- The counts array as a mathematical function: `cells.count l`, cast to ℤ
(the proofs show `countRun` equals this). -/
def ccI (cells : List ℤ) : ℤ → ℤ := fun l => (cells.count l : ℤ)

/-- The number of points among the first `i` that fall in cell `l`. -/
def pcI (cells : List ℤ) (i : ℕ) : ℤ → ℤ := fun l => ((cells.take i).count l : ℤ)

/-- The full enumeration of the claims: `iter_nearest_neighbors` run over
every cell index of the grid built from `pts` (that is,
`np.arange(len(cells_count))`), with the radius-1 neighbor offsets. -/
def builtPairs (pts : List (List ℚ)) (cs : ℚ) : List (ℤ × ℤ) :=
  iter_nearest_neighbors
    ((List.range (gridSize pts cs).toNat).map (fun (k : ℕ) => (k : ℤ)))
    (neighboring_cells (gridShape pts cs) 1)
    (placed pts cs).1 (countsF pts cs) (placed pts cs).2

/-! ## Generic helper lemmas: function-array updates and segments -/

theorem update_same (f : ℤ → ℤ) (i v : ℤ) : update f i v i = v := by
  simp [update]

theorem update_other (f : ℤ → ℤ) {i x : ℤ} (v : ℤ) (h : x ≠ i) : update f i v x = f x := by
  simp [update, h]

theorem listSeg_zero (f : ℤ → ℤ) (s : ℤ) : listSeg f s 0 = [] := rfl

theorem listSeg_succ_left (f : ℤ → ℤ) (s : ℤ) (n : ℕ) :
    listSeg f s (n + 1) = f s :: listSeg f (s + 1) n := by
  unfold listSeg
  rw [List.range_succ_eq_map]
  simp only [List.map_cons, List.map_map]
  refine congrArg₂ _ (by simp) (List.map_congr_left fun k _ => ?_)
  simp [Function.comp]
  ring_nf

theorem listSeg_append (f : ℤ → ℤ) (s : ℤ) (m n : ℕ) :
    listSeg f s (m + n) = listSeg f s m ++ listSeg f (s + (m : ℤ)) n := by
  unfold listSeg
  rw [List.range_add, List.map_append, List.map_map]
  refine congrArg₂ _ rfl (List.map_congr_left fun k _ => ?_)
  simp [Function.comp]
  ring_nf

theorem listSeg_update_out (f : ℤ → ℤ) (s : ℤ) (n : ℕ) {i : ℤ} (v : ℤ)
    (h : ∀ k : ℕ, k < n → s + (k : ℤ) ≠ i) :
    listSeg (update f i v) s n = listSeg f s n := by
  unfold listSeg
  exact List.map_congr_left fun k hk => update_other f _ (h k (List.mem_range.mp hk))

/-! ## Generic helper lemmas: counting in lists of pairs -/

theorem count_flatMap {α β : Type} [BEq β] (l : List α) (f : α → List β) (b : β) :
    (l.flatMap f).count b = (l.map (fun a => (f a).count b)).sum := by
  induction l with
  | nil => rfl
  | cons a t ih => simp [List.flatMap_cons, List.count_append, ih]

theorem count_pair_map (pn : List ℤ) (a x y : ℤ) :
    ((pn.map (fun j => (a, j))).count (x, y)) = if a = x then pn.count y else 0 := by
  induction pn with
  | nil => simp
  | cons j t ih =>
    simp only [List.map_cons, List.count_cons, ih]
    by_cases hax : a = x
    · by_cases hjy : j = y <;> simp [hax, hjy, Prod.ext_iff]
    · simp [hax, Prod.ext_iff]

theorem count_cross (pc pn : List ℤ) (x y : ℤ) :
    ((pc.flatMap (fun i => pn.map (fun j => (i, j)))).count (x, y))
      = pc.count x * pn.count y := by
  induction pc with
  | nil => simp
  | cons a t ih =>
    simp only [List.flatMap_cons, List.count_append, ih, count_pair_map, List.count_cons]
    by_cases hax : a = x
    · simp [hax]; ring
    · simp [hax]

theorem intra_count_left_not {l : List ℤ} {x : ℤ} (hx : x ∉ l) (y : ℤ) :
    (intra l).count (x, y) = 0 := by
  induction l with
  | nil => rfl
  | cons a t ih =>
    simp only [intra, List.count_append, count_pair_map]
    have hax : a ≠ x := fun h => hx (h ▸ List.mem_cons_self a t)
    have hxt : x ∉ t := fun h => hx (List.mem_cons_of_mem a h)
    simp [hax, ih hxt]

theorem intra_count_right_not {l : List ℤ} {y : ℤ} (hy : y ∉ l) (x : ℤ) :
    (intra l).count (x, y) = 0 := by
  induction l with
  | nil => rfl
  | cons a t ih =>
    simp only [intra, List.count_append, count_pair_map]
    have hyt : y ∉ t := fun h => hy (List.mem_cons_of_mem a h)
    have hcy : t.count y = 0 := List.count_eq_zero.mpr hyt
    by_cases hax : a = x <;> simp [hax, hcy, ih hyt]

theorem intra_count_diag {l : List ℤ} (hl : l.Nodup) (x : ℤ) :
    (intra l).count (x, x) = 0 := by
  induction l with
  | nil => rfl
  | cons a t ih =>
    rcases List.nodup_cons.mp hl with ⟨hat, ht⟩
    simp only [intra, List.count_append, count_pair_map]
    by_cases hax : a = x
    · subst hax
      simp [List.count_eq_zero.mpr hat, ih ht]
    · simp [hax, ih ht]

theorem intra_count_pair {l : List ℤ} (hl : l.Nodup) {x y : ℤ} (hxy : x ≠ y)
    (hx : x ∈ l) (hy : y ∈ l) :
    (intra l).count (x, y) + (intra l).count (y, x) = 1 := by
  induction l with
  | nil => cases hx
  | cons a t ih =>
    rcases List.nodup_cons.mp hl with ⟨hat, ht⟩
    simp only [intra, List.count_append, count_pair_map]
    by_cases hax : a = x
    · subst hax
      have hyt : y ∈ t := by
        rcases List.mem_cons.mp hy with h | h
        · exact absurd h.symm hxy
        · exact h
      have h1 : t.count y = 1 := List.count_eq_one_of_mem ht hyt
      have h2 : (intra t).count (a, y) = 0 := intra_count_left_not hat y
      have h3 : (intra t).count (y, a) = 0 := intra_count_right_not hat y
      have hya : y ≠ a := fun h => hxy h.symm
      simp [h1, h2, h3, hya, hxy]
    · by_cases hay : a = y
      · subst hay
        have hxt : x ∈ t := by
          rcases List.mem_cons.mp hx with h | h
          · exact absurd h.symm hax
          · exact h
        have h1 : t.count x = 1 := List.count_eq_one_of_mem ht hxt
        have h2 : (intra t).count (x, a) = 0 := intra_count_right_not hat x
        have h3 : (intra t).count (a, x) = 0 := intra_count_left_not hat x
        have hxa : x ≠ a := fun h => hax h.symm
        simp [h1, h2, h3, hax, hxa]
      · have hxt : x ∈ t := by
          rcases List.mem_cons.mp hx with h | h
          · exact absurd h.symm hax
          · exact h
        have hyt : y ∈ t := by
          rcases List.mem_cons.mp hy with h | h
          · exact absurd h.symm hay
          · exact h
        have := ih ht hxt hyt
        simp [hax, hay, this]

theorem sum_map_range {M : Type} [AddCommMonoid M] (n : ℕ) (f : ℕ → M) :
    ((List.range n).map f).sum = ∑ i in Finset.range n, f i := by
  induction n with
  | zero => rfl
  | succ m ih => rw [List.range_succ, Finset.sum_range_succ, List.map_append, List.sum_append, ih]; simp

theorem foldr_max_le {l : List ℤ} {c : ℤ} :
    l.foldr max 0 ≤ c ↔ 0 ≤ c ∧ ∀ x ∈ l, x ≤ c := by
  induction l with
  | nil => simp
  | cons a t ih =>
    simp only [List.foldr_cons, max_le_iff, ih, List.mem_cons]
    constructor
    · rintro ⟨h1, h2, h3⟩
      exact ⟨h2, fun x hx => by rcases hx with rfl | hx; exact h1; exact h3 x hx⟩
    · rintro ⟨h1, h2⟩
      exact ⟨h2 a (Or.inl rfl), h1, fun x hx => h2 x (Or.inr hx)⟩

/-! ## Mixed-radix encoding: range, additivity, injectivity -/

theorem hornerA_nil (sh : List ℤ) (acc : ℤ) : hornerA sh [] acc = acc := rfl

theorem hornerA_cons (s : ℤ) (sh : List ℤ) (x : ℤ) (t : List ℤ) (acc : ℤ) :
    hornerA (s :: sh) (x :: t) acc = hornerA sh t (acc * s + x) := rfl

theorem mixedRadix_nil (sh : List ℤ) : mixedRadix sh [] = 0 := by
  simp [mixedRadix, hornerA]

theorem hornerA_split (t : List ℤ) : ∀ (sh : List ℤ) (acc : ℤ), t.length = sh.length →
    hornerA sh t acc = acc * sh.prod + hornerA sh t 0 := by
  induction t with
  | nil => intro sh acc h; rw [List.length_nil] at h; rw [List.eq_nil_of_length_eq_zero h.symm]; simp [hornerA_nil]
  | cons x t ih =>
    intro sh acc h
    match sh with
    | [] => simp at h
    | s :: sh =>
      have hlen : t.length = sh.length := by simpa using h
      rw [hornerA_cons, hornerA_cons, ih sh _ hlen, ih sh (0 * s + x) hlen, List.prod_cons]
      ring

theorem hornerA_zero_eq (t sh : List ℤ) (h : t.length = sh.length) :
    hornerA sh t 0 = mixedRadix sh t := by
  match t, sh with
  | [], [] => simp [mixedRadix_nil, hornerA_nil]
  | x :: t, s :: sh =>
    rw [hornerA_cons]
    show hornerA sh t (0 * s + x) = mixedRadix (s :: sh) (x :: t)
    norm_num [mixedRadix]

theorem mixedRadix_cons {t sh : List ℤ} (s x : ℤ) (h : t.length = sh.length) :
    mixedRadix (s :: sh) (x :: t) = x * sh.prod + mixedRadix sh t := by
  show hornerA sh t x = _
  rw [hornerA_split t sh x h, hornerA_zero_eq t sh h]

theorem mixedRadix_range {t sh : List ℤ} (h : FullBox t sh) :
    0 ≤ mixedRadix sh t ∧ mixedRadix sh t < sh.prod := by
  induction h with
  | nil => simp [mixedRadix_nil]
  | @cons x s t sh hxs htl ih =>
    have hlen : t.length = sh.length := htl.length_eq
    rw [mixedRadix_cons s x hlen, List.prod_cons]
    have hP : 0 < sh.prod := lt_of_le_of_lt ih.1 ih.2
    constructor
    · have := mul_nonneg hxs.1 hP.le
      omega
    · nlinarith [ih.1, ih.2, hxs.1, hxs.2]

theorem mixedRadix_add : ∀ {t u sh : List ℤ}, t.length = sh.length → u.length = sh.length →
    mixedRadix sh (List.zipWith (· + ·) t u) = mixedRadix sh t + mixedRadix sh u := by
  intro t
  induction t with
  | nil =>
    intro u sh ht hu
    rw [List.length_nil] at ht
    rw [List.eq_nil_of_length_eq_zero ht.symm] at hu ⊢
    rw [List.eq_nil_of_length_eq_zero hu]
    simp [mixedRadix_nil]
  | cons x t ih =>
    intro u sh ht hu
    match u, sh with
    | [], _ => rw [List.length_nil] at hu; rw [List.eq_nil_of_length_eq_zero hu.symm] at ht; simp at ht
    | y :: u, [] => simp at hu
    | y :: u, s :: sh =>
      have ht' : t.length = sh.length := by simpa using ht
      have hu' : u.length = sh.length := by simpa using hu
      have hz : (List.zipWith (· + ·) t u).length = sh.length := by
        rw [List.length_zipWith]; omega
      rw [List.zipWith_cons_cons, mixedRadix_cons s _ hz, mixedRadix_cons s x ht',
        mixedRadix_cons s y hu', ih ht' hu']
      ring

theorem mixedRadix_inj : ∀ {t u sh : List ℤ}, FullBox t sh → FullBox u sh →
    mixedRadix sh t = mixedRadix sh u → t = u := by
  intro t u sh ht
  induction ht generalizing u with
  | nil =>
    intro hu _
    cases hu
    rfl
  | @cons x s t sh hxs htl ih =>
    intro hu heq
    match u, hu with
    | y :: u, hu =>
      rcases List.forall₂_cons.mp hu with ⟨hys, hu'⟩
      have hlt : t.length = sh.length := htl.length_eq
      have hlu : u.length = sh.length := hu'.length_eq
      rw [mixedRadix_cons s x hlt, mixedRadix_cons s y hlu] at heq
      have hrt := mixedRadix_range htl
      have hru := mixedRadix_range hu'
      have hP : 0 < sh.prod := lt_of_le_of_lt hrt.1 hrt.2
      have hxy : x = y := by nlinarith [hrt.1, hrt.2, hru.1, hru.2, hxs.1, hxs.2, hys.1, hys.2]
      subst hxy
      have : mixedRadix sh t = mixedRadix sh u := by omega
      rw [ih hu' this]

theorem mixedRadix_zero : ∀ (sh : List ℤ), mixedRadix sh (List.replicate sh.length 0) = 0 := by
  intro sh
  induction sh with
  | nil => simp [mixedRadix_nil]
  | cons s sh ih =>
    rw [List.length_cons, List.replicate_succ,
      mixedRadix_cons s 0 (by simp), ih]
    ring

theorem mixedRadix_neg : ∀ {t sh : List ℤ}, t.length = sh.length →
    mixedRadix sh (t.map (fun x => -x)) = -mixedRadix sh t := by
  intro t
  induction t with
  | nil =>
    intro sh h
    rw [List.length_nil] at h
    rw [List.eq_nil_of_length_eq_zero h.symm]
    simp [mixedRadix_nil]
  | cons x t ih =>
    intro sh h
    match sh with
    | [] => simp at h
    | s :: sh =>
      have h' : t.length = sh.length := by simpa using h
      rw [List.map_cons, mixedRadix_cons s _ (by simpa using h'), mixedRadix_cons s x h', ih h']
      ring

/-- Shifting a unit offset by the all-ones vector lands in the full box when
every radix is at least `3`. -/
theorem unit_shift_box : ∀ {t sh : List ℤ}, t.length = sh.length →
    (∀ s ∈ sh, 3 ≤ s) → UnitBox t →
    FullBox (List.zipWith (· + ·) t (List.replicate t.length 1)) sh := by
  intro t
  induction t with
  | nil =>
    intro sh h _ _
    rw [List.length_nil] at h
    rw [List.eq_nil_of_length_eq_zero h.symm]
    exact List.Forall₂.nil
  | cons x t ih =>
    intro sh h h3 hu
    match sh with
    | [] => simp at h
    | s :: sh =>
      have h' : t.length = sh.length := by simpa using h
      rw [List.length_cons, List.replicate_succ, List.zipWith_cons_cons]
      refine List.Forall₂.cons ?_ (ih h' (fun a ha => h3 a (List.mem_cons_of_mem s ha))
        (fun a ha => hu a (List.mem_cons_of_mem x ha)))
      have hx := hu x (List.mem_cons_self x t)
      have hs := h3 s (List.mem_cons_self s sh)
      omega

theorem zipWith_add_cancel : ∀ {t u v : List ℤ}, t.length = u.length → u.length = v.length →
    List.zipWith (· + ·) t v = List.zipWith (· + ·) u v → t = u := by
  intro t
  induction t with
  | nil =>
    intro u v ht _ _
    rw [List.length_nil] at ht
    exact (List.eq_nil_of_length_eq_zero ht.symm).symm
  | cons x t ih =>
    intro u v ht hu heq
    match u, v with
    | [], _ => simp at ht
    | y :: u, [] => simp at hu
    | y :: u, z :: v =>
      rw [List.zipWith_cons_cons, List.zipWith_cons_cons] at heq
      have h1 : x + z = y + z := (List.cons.injEq _ _ _ _ ▸ heq).1
      have h2 := ih (by simpa using ht) (by simpa using hu) (List.cons.injEq _ _ _ _ ▸ heq).2
      rw [h2]
      have : x = y := by omega
      rw [this]

/-- Mixed-radix flattening is injective on unit offsets when every radix is
at least `3`. -/
theorem mixedRadix_inj_unit {t u sh : List ℤ} (ht : t.length = sh.length)
    (hu : u.length = sh.length) (h3 : ∀ s ∈ sh, 3 ≤ s) (hut : UnitBox t) (huu : UnitBox u)
    (heq : mixedRadix sh t = mixedRadix sh u) : t = u := by
  have hb1 := unit_shift_box ht h3 hut
  have hb2 := unit_shift_box hu h3 huu
  have hrep : (List.replicate t.length (1 : ℤ)).length = sh.length := by simpa using ht
  have hrep2 : (List.replicate u.length (1 : ℤ)).length = sh.length := by simpa using hu
  have e1 := mixedRadix_add ht hrep
  have e2 := mixedRadix_add hu hrep2
  have hrr : List.replicate t.length (1 : ℤ) = List.replicate u.length 1 := by rw [ht, hu]
  have : mixedRadix sh (List.zipWith (· + ·) t (List.replicate t.length 1))
      = mixedRadix sh (List.zipWith (· + ·) u (List.replicate u.length 1)) := by
    rw [e1, e2, heq, hrr]
  have := mixedRadix_inj hb1 hb2 this
  rw [hrr] at this
  exact zipWith_add_cancel (ht.trans hu.symm) (List.length_replicate _ _).symm this

/-! ## The half-neighborhood: `cartProd`, `prodAll`, `halfTail` -/

theorem mem_cartProd : ∀ {ls : List (List ℤ)} {t : List ℤ},
    t ∈ cartProd ls ↔ List.Forall₂ (fun x l => x ∈ l) t ls := by
  intro ls
  induction ls with
  | nil =>
    intro t
    constructor
    · intro h
      rcases List.mem_singleton.mp h with rfl
      exact List.Forall₂.nil
    · intro h
      cases h
      exact List.mem_singleton.mpr rfl
  | cons xs rest ih =>
    intro t
    simp only [cartProd, List.mem_flatMap, List.mem_map]
    constructor
    · rintro ⟨x, hx, t', ht', rfl⟩
      exact List.Forall₂.cons hx (ih.mp ht')
    · intro h
      rcases List.forall₂_cons_right_iff.mp h with ⟨x, t', hx, ht', rfl⟩
      exact ⟨x, hx, t', ih.mpr ht', rfl⟩

theorem forall₂_replicate {t : List ℤ} {n : ℕ} {l : List ℤ}
    (h : List.Forall₂ (fun x u => x ∈ u) t (List.replicate n l)) :
    t.length = n ∧ ∀ x ∈ t, x ∈ l := by
  induction n generalizing t with
  | zero =>
    cases h
    simp
  | succ m ih =>
    rw [List.replicate_succ] at h
    rcases List.forall₂_cons_right_iff.mp h with ⟨x, t', hx, ht', rfl⟩
    rcases ih ht' with ⟨h1, h2⟩
    refine ⟨by simp [h1], ?_⟩
    intro y hy
    rcases List.mem_cons.mp hy with rfl | hy
    · exact hx
    · exact h2 y hy

theorem replicate_forall₂ {t : List ℤ} {n : ℕ} {l : List ℤ}
    (h1 : t.length = n) (h2 : ∀ x ∈ t, x ∈ l) :
    List.Forall₂ (fun x u => x ∈ u) t (List.replicate n l) := by
  induction t generalizing n with
  | nil => rw [← h1]; exact List.Forall₂.nil
  | cons x t ih =>
    rw [← h1, List.length_cons, List.replicate_succ]
    exact List.Forall₂.cons (h2 x (List.mem_cons_self x t))
      (ih rfl (fun y hy => h2 y (List.mem_cons_of_mem x hy)))

theorem mem_baseRange {r : ℕ} {x : ℤ} : x ∈ baseRange r ↔ -(r : ℤ) ≤ x ∧ x ≤ (r : ℤ) := by
  unfold baseRange
  simp only [List.mem_map, List.mem_range]
  constructor
  · rintro ⟨k, hk, rfl⟩
    omega
  · intro h
    exact ⟨(x + (r : ℤ)).toNat, by omega, by omega⟩

theorem baseRange_nodup (r : ℕ) : (baseRange r).Nodup :=
  (List.nodup_range _).map_on (fun a _ b _ h => by omega)

theorem baseRange_length (r : ℕ) : (baseRange r).length = 2 * r + 1 := by
  simp [baseRange]

theorem cartProd_nodup : ∀ {ls : List (List ℤ)}, (∀ l ∈ ls, l.Nodup) →
    (cartProd ls).Nodup := by
  intro ls
  induction ls with
  | nil => intro _; simp [cartProd]
  | cons xs rest ih =>
    intro h
    unfold cartProd
    rw [List.nodup_flatMap]
    refine ⟨fun x _ => (ih (fun l hl => h l (List.mem_cons_of_mem xs hl))).map_on
      (fun a _ b _ hab => by injection hab), ?_⟩
    have hxs : xs.Nodup := h xs (List.mem_cons_self xs rest)
    refine List.Pairwise.imp_of_mem ?_ hxs
    intro a b _ _ hab
    intro t hta htb
    rcases List.mem_map.mp hta with ⟨u, _, rfl⟩
    rcases List.mem_map.mp htb with ⟨v, _, hv⟩
    exact hab (by injection hv with h1 _; exact h1.symm)

theorem prodAll_length (D r : ℕ) : (prodAll D r).length = (2 * r + 1) ^ D := by
  induction D with
  | zero => rfl
  | succ m ih =>
    unfold prodAll at ih ⊢
    rw [List.replicate_succ]
    unfold cartProd
    rw [List.length_flatMap]
    have : List.map (List.length ∘ fun x => (cartProd (List.replicate m (baseRange r))).map (x :: ·))
        (baseRange r) = List.map (fun _ => (2 * r + 1) ^ m) (baseRange r) := by
      refine List.map_congr_left fun x _ => ?_
      simp [Function.comp, ih]
    rw [this, List.map_const', List.sum_replicate, baseRange_length, smul_eq_mul]
    ring

theorem prodAll_nodup (D r : ℕ) : (prodAll D r).Nodup :=
  cartProd_nodup (fun _ hl => (List.eq_of_mem_replicate hl) ▸ baseRange_nodup r)

theorem mem_prodAll {D r : ℕ} {t : List ℤ} :
    t ∈ prodAll D r ↔ t.length = D ∧ ∀ x ∈ t, -(r : ℤ) ≤ x ∧ x ≤ (r : ℤ) := by
  unfold prodAll
  rw [mem_cartProd]
  constructor
  · intro h
    rcases forall₂_replicate h with ⟨h1, h2⟩
    exact ⟨h1, fun x hx => mem_baseRange.mp (h2 x hx)⟩
  · rintro ⟨h1, h2⟩
    exact replicate_forall₂ h1 (fun x hx => mem_baseRange.mpr (h2 x hx))

theorem reverse_flatMap {α β : Type} (l : List α) (f : α → List β) :
    (l.flatMap f).reverse = l.reverse.flatMap (fun x => (f x).reverse) := by
  induction l with
  | nil => rfl
  | cons a t ih =>
    simp [List.flatMap_cons, List.reverse_append, ih, List.flatMap_append]

theorem range_reverse (n : ℕ) : (List.range n).reverse = (List.range n).map (fun k => n - 1 - k) := by
  induction n with
  | zero => rfl
  | succ m ih =>
    conv_rhs => rw [List.range_succ_eq_map]
    rw [List.range_succ, List.reverse_append, ih]
    simp only [List.reverse_singleton, List.singleton_append, List.map_cons, List.map_map]
    refine congrArg₂ _ (by omega) (List.map_congr_left fun k hk => ?_)
    simp only [Function.comp]
    omega

theorem baseRange_reverse (r : ℕ) :
    (baseRange r).reverse = (baseRange r).map (fun x => -x) := by
  unfold baseRange
  rw [← List.map_reverse, range_reverse, List.map_map, List.map_map]
  refine List.map_congr_left fun k hk => ?_
  rw [List.mem_range] at hk
  simp only [Function.comp]
  omega

theorem prodAll_succ (m r : ℕ) :
    prodAll (m + 1) r = (baseRange r).flatMap (fun x => (prodAll m r).map (x :: ·)) := by
  unfold prodAll
  rw [List.replicate_succ]
  rfl

/-- The enumeration of the full neighborhood read backwards is its image
under negation. -/
theorem prodAll_reverse (D r : ℕ) :
    (prodAll D r).reverse = (prodAll D r).map (List.map (fun x => -x)) := by
  induction D with
  | zero => rfl
  | succ m ih =>
    rw [prodAll_succ, reverse_flatMap, baseRange_reverse, List.flatMap_map, List.map_flatMap]
    refine congrArg (List.flatMap (baseRange r)) (funext fun x => ?_)
    rw [← List.map_reverse, ih, List.map_map, List.map_map]
    exact List.map_congr_left fun t _ => by simp

theorem prodAll_length_odd (D r : ℕ) :
    (prodAll D r).length = 2 * ((prodAll D r).length / 2) + 1 := by
  have hodd : Odd ((2 * r + 1) ^ D) := Odd.pow ⟨r, by ring⟩
  rw [prodAll_length]
  rcases hodd with ⟨m, hm⟩
  omega

theorem getD_map_outer (F : List ℤ → List ℤ) (l : List (List ℤ)) (i : ℕ)
    (h : i < l.length) : (l.map F).getD i [] = F (l.getD i []) := by
  rw [List.getD_eq_getElem _ _ (by rw [List.length_map]; exact h),
    List.getD_eq_getElem _ _ h, List.getElem_map]

theorem getD_rev_outer (l : List (List ℤ)) (i : ℕ) (h : i < l.length) :
    l.reverse.getD i [] = l.getD (l.length - 1 - i) [] := by
  rw [List.getD_eq_getElem _ _ (by rw [List.length_reverse]; exact h),
    List.getD_eq_getElem _ _ (by omega), List.getElem_reverse]

theorem getD_map_inner (f : ℤ → ℤ) (l : List ℤ) (i : ℕ)
    (h : i < l.length) : (l.map f).getD i 0 = f (l.getD i 0) := by
  rw [List.getD_eq_getElem _ _ (by rw [List.length_map]; exact h),
    List.getD_eq_getElem _ _ h, List.getElem_map]

/-- The element exactly in the middle of the neighborhood enumeration is the
all-zero (self-cell) offset. -/
theorem prodAll_mid (D r : ℕ) :
    (prodAll D r).getD ((prodAll D r).length / 2) [] = List.replicate D 0 := by
  have hodd := prodAll_length_odd D r
  have hlt : (prodAll D r).length / 2 < (prodAll D r).length := by omega
  have hrev := prodAll_reverse D r
  have h1 : (prodAll D r).reverse.getD ((prodAll D r).length / 2) []
      = ((prodAll D r).map (List.map (fun x => -x))).getD ((prodAll D r).length / 2) [] := by
    rw [hrev]
  rw [getD_rev_outer _ _ hlt, getD_map_outer _ _ _ hlt] at h1
  have hgot : (prodAll D r).length - 1 - (prodAll D r).length / 2
      = (prodAll D r).length / 2 := by omega
  rw [hgot] at h1
  -- h1 : mid = map neg mid
  have hmem : (prodAll D r).getD ((prodAll D r).length / 2) [] ∈ prodAll D r := by
    rw [List.getD_eq_getElem _ _ hlt]
    exact List.getElem_mem hlt
  have hlen : ((prodAll D r).getD ((prodAll D r).length / 2) []).length = D :=
    (mem_prodAll.mp hmem).1
  rw [List.eq_replicate_iff]
  refine ⟨hlen, ?_⟩
  intro b hb
  rcases List.mem_iff_getElem.mp hb with ⟨d, hd, rfl⟩
  have h2 := congrArg (fun (t : List ℤ) => t.getD d 0) h1
  simp only at h2
  rw [getD_map_inner _ _ _ hd] at h2
  rw [List.getD_eq_getElem _ _ hd] at h2
  omega

theorem halfTail_length (D r : ℕ) :
    (halfTail D r).length = ((2 * r + 1) ^ D - 1) / 2 := by
  have hodd := prodAll_length_odd D r
  have hlen := prodAll_length D r
  unfold halfTail
  rw [List.length_drop]
  omega

theorem mem_halfTail_mem_prodAll {D r : ℕ} {δ : List ℤ} (h : δ ∈ halfTail D r) :
    δ ∈ prodAll D r := List.drop_subset _ _ h

/-- The split of the full neighborhood enumeration around its middle:
`prodAll = take h ++ mid :: halfTail` where `h` is half the (odd) length. -/
theorem prodAll_split (D r : ℕ) :
    prodAll D r = (prodAll D r).take ((prodAll D r).length / 2)
      ++ List.replicate D 0 :: halfTail D r := by
  have hodd := prodAll_length_odd D r
  have hlt : (prodAll D r).length / 2 < (prodAll D r).length := by omega
  have hmid := prodAll_mid D r
  rw [List.getD_eq_getElem _ _ hlt] at hmid
  conv_lhs => rw [← List.take_append_drop ((prodAll D r).length / 2 + 1) (prodAll D r)]
  rw [List.take_succ]
  unfold halfTail
  rw [List.getElem?_eq_getElem hlt, hmid]
  simp

theorem replicate_zero_not_mem_halfTail (D r : ℕ) :
    List.replicate D (0 : ℤ) ∉ halfTail D r := by
  have hsplit := prodAll_split D r
  have hnd := prodAll_nodup D r
  rw [hsplit, List.nodup_append] at hnd
  rcases hnd with ⟨_, hnd2, _⟩
  exact (List.nodup_cons.mp hnd2).1

theorem halfTail_nodup (D r : ℕ) : (halfTail D r).Nodup :=
  (List.drop_sublist _ _).nodup (prodAll_nodup D r)

/-- Exactly one of each `±` pair of non-zero offsets survives in the kept
tail of the enumeration. -/
theorem halfTail_one_rep {D r : ℕ} {δ : List ℤ} (hmem : δ ∈ prodAll D r)
    (hne : δ ≠ List.replicate D 0) :
    δ ∈ halfTail D r ↔ δ.map (fun x => -x) ∉ halfTail D r := by
  classical
  have hodd := prodAll_length_odd D r
  set P := prodAll D r with hP
  set h := P.length / 2 with hh
  set A := P.take h with hA
  set B := halfTail D r with hB
  have hsplit : P = A ++ List.replicate D 0 :: B := prodAll_split D r
  have hlen2 : P.length = (2 * r + 1) ^ D := by rw [hP]; exact prodAll_length D r
  have hlenA : A.length = h := by
    rw [hA, List.length_take]
    omega
  have hlenB : B.length = h := by
    rw [hB, halfTail_length]
    omega
  -- the reversal symmetry, decomposed along the split
  have hsym : P.map (List.map (fun x => -x)) = P.reverse := (prodAll_reverse D r).symm
  have hmidF : (List.replicate D (0 : ℤ)).map (fun x => -x) = List.replicate D 0 := by
    simp
  rw [hsplit] at hsym
  rw [List.map_append, List.map_cons, hmidF, List.reverse_append, List.reverse_cons,
    List.append_assoc] at hsym
  have hinj := List.append_inj hsym (by
    rw [List.length_map, hlenA, List.length_reverse, hlenB])
  have hAB : A.map (List.map (fun x => -x)) = B.reverse := hinj.1
  have hBA : B.map (List.map (fun x => -x)) = A.reverse := by
    have := hinj.2
    rw [List.singleton_append] at this
    exact (List.cons.injEq _ _ _ _ ▸ this).2
  -- disjointness from nodup
  have hnd : P.Nodup := prodAll_nodup D r
  rw [hsplit, List.nodup_append] at hnd
  rcases hnd with ⟨_, hnd2, hdisj⟩
  have hdisjAB : ∀ x ∈ A, x ∉ B := fun _ hx hxB =>
    hdisj hx (List.mem_cons_of_mem _ hxB)
  have hmA : ∀ x ∈ A, x.map (fun y => -y) ∈ B := by
    intro x hx
    have : x.map (fun y => -y) ∈ A.map (List.map (fun y => -y)) :=
      List.mem_map_of_mem _ hx
    rw [hAB] at this
    exact List.mem_reverse.mp this
  have hmB : ∀ x ∈ B, x.map (fun y => -y) ∈ A := by
    intro x hx
    have : x.map (fun y => -y) ∈ B.map (List.map (fun y => -y)) :=
      List.mem_map_of_mem _ hx
    rw [hBA] at this
    exact List.mem_reverse.mp this
  constructor
  · intro hδB hFB
    exact hdisjAB _ (hmB δ hδB) hFB
  · intro hFB
    have : δ ∈ A ++ List.replicate D 0 :: B := by rw [← hsplit]; exact hmem
    rcases List.mem_append.mp this with hδA | hδm
    · exact absurd (hmA δ hδA) hFB
    · rcases List.mem_cons.mp hδm with rfl | hδB
      · exact absurd rfl hne
      · exact hδB

/-! ## The counting sort of `add_to_cells` -/

theorem countFold_general : ∀ (xs : List ℤ) (f0 : ℤ → ℤ) (l : ℤ),
    (xs.foldl (fun f x => update f x (f x + 1)) f0) l = f0 l + (xs.count l : ℤ) := by
  intro xs
  induction xs with
  | nil => intro f0 l; simp
  | cons x xs ih =>
    intro f0 l
    rw [List.foldl_cons, ih, List.count_cons]
    by_cases hxl : x = l
    · subst hxl
      rw [update_same]
      simp
      ring
    · rw [update_other _ _ (fun h => hxl h.symm)]
      simp [hxl]

theorem countRun_eq (cells : List ℤ) (l : ℤ) : countRun cells l = ccI cells l := by
  unfold countRun ccI
  rw [countFold_general]
  omega

theorem ccI_nonneg (cells : List ℤ) (l : ℤ) : 0 ≤ ccI cells l := by
  unfold ccI
  positivity

theorem ccI_pos_mem {cells : List ℤ} {l : ℤ} (h : 0 < ccI cells l) : l ∈ cells := by
  unfold ccI at h
  exact List.count_pos_iff.mp (by exact_mod_cast h)

theorem cumsumF_mono (cc : ℤ → ℤ) (hnn : ∀ k, 0 ≤ cc k) {a b : ℤ} (h : a ≤ b) :
    cumsumF cc a ≤ cumsumF cc b := by
  unfold cumsumF
  refine Finset.sum_le_sum_of_subset_of_nonneg ?_ (fun i _ _ => hnn _)
  refine Finset.range_subset.mpr ?_
  omega

theorem cumsumF_split (cc : ℤ → ℤ) (c : ℤ) (hc : 0 ≤ c) :
    cumsumF cc c = (∑ k in Finset.range c.toNat, cc (k : ℤ)) + cc c := by
  unfold cumsumF
  rw [Finset.sum_range_succ]
  rw [Int.toNat_of_nonneg hc]

theorem cumsumF_le_of_lt (cc : ℤ → ℤ) (hnn : ∀ k, 0 ≤ cc k) {l c : ℤ}
    (h0 : 0 ≤ l) (hlc : l < c) : cumsumF cc l ≤ cumsumF cc c - cc c := by
  rw [cumsumF_split cc c (by omega)]
  have : cumsumF cc l ≤ ∑ k in Finset.range c.toNat, cc (k : ℤ) := by
    unfold cumsumF
    refine Finset.sum_le_sum_of_subset_of_nonneg ?_ (fun i _ _ => hnn _)
    refine Finset.range_subset.mpr ?_
    omega
  omega

theorem pcI_succ (cells : List ℤ) {i0 : ℕ} (h : i0 < cells.length) (l : ℤ) :
    pcI cells (i0 + 1) l = pcI cells i0 l + (if cells[i0] = l then 1 else 0) := by
  unfold pcI
  rw [List.take_succ, List.getElem?_eq_getElem h]
  rw [List.count_append]
  simp only [Option.toList_some, List.count_singleton]
  by_cases hx : cells[i0] = l
  · simp [hx]
  · simp [hx]

theorem pcI_le (cells : List ℤ) (i0 : ℕ) (l : ℤ) : pcI cells i0 l ≤ ccI cells l := by
  unfold pcI ccI
  exact_mod_cast (List.take_sublist i0 cells).count_le l

theorem pcI_nonneg (cells : List ℤ) (i0 : ℕ) (l : ℤ) : 0 ≤ pcI cells i0 l := by
  unfold pcI
  positivity

theorem pcI_full (cells : List ℤ) {i0 : ℕ} (h : cells.length ≤ i0) (l : ℤ) :
    pcI cells i0 l = ccI cells l := by
  unfold pcI ccI
  rw [List.take_of_length_le h]

theorem pcI_pos_mem {cells : List ℤ} {i0 : ℕ} {l : ℤ} (h : 0 < pcI cells i0 l) : l ∈ cells := by
  unfold pcI at h
  have : l ∈ cells.take i0 := List.count_pos_iff.mp (by exact_mod_cast h)
  exact (List.take_sublist i0 cells).mem this

/-- Main invariant of the back-to-front placement loop: after processing the
first `i0` points, `cells_offset[l]` has been decremented once per placed
point of cell `l`, and the top part of cell `l`'s block holds exactly the
already-placed points of cell `l` in reverse input order. -/
theorem place_go (cells : List ℤ) (hnn : ∀ v ∈ cells, 0 ≤ v) :
    ∀ (todo : List ℤ) (i0 : ℕ) (st : (ℤ → ℤ) × (ℤ → ℤ)),
      i0 ≤ cells.length →
      cells.drop i0 = todo →
      (∀ l, st.2 l = cumsumF (ccI cells) l - pcI cells i0 l) →
      (∀ l, listSeg st.1 (cumsumF (ccI cells) l - pcI cells i0 l) ((cells.take i0).count l)
          = ((List.range i0).filter (fun k => cells.getD k 0 = l)).reverse.map
              (fun (k : ℕ) => (k : ℤ))) →
      (∀ l, ((todo.enumFrom i0).foldl placeStep st).2 l
          = cumsumF (ccI cells) l - ccI cells l) ∧
      (∀ l, listSeg ((todo.enumFrom i0).foldl placeStep st).1
            (cumsumF (ccI cells) l - ccI cells l) (cells.count l)
          = ((List.range cells.length).filter (fun k => cells.getD k 0 = l)).reverse.map
              (fun (k : ℕ) => (k : ℤ))) := by
  intro todo
  induction todo with
  | nil =>
    intro i0 st hle hdrop hco hseg
    have hi0 : i0 = cells.length := by
      have := List.drop_eq_nil_iff.mp hdrop
      omega
    subst hi0
    constructor
    · intro l
      rw [List.enumFrom, List.foldl_nil, hco l, pcI_full cells le_rfl]
    · intro l
      have h1 := hseg l
      rw [pcI_full cells le_rfl] at h1
      rw [List.take_of_length_le le_rfl] at h1
      exact h1
  | cons x rest ih =>
    intro i0 st hle hdrop hco hseg
    have hlen : cells.length - i0 = rest.length + 1 := by
      have := congrArg List.length hdrop
      rw [List.length_drop] at this
      simpa using this
    have hi0 : i0 < cells.length := by omega
    have hx : cells[i0] = x := by
      have h1 := List.getElem?_drop cells i0 0
      rw [hdrop] at h1
      have h0 : cells[i0]? = some x := by simpa using h1.symm
      have h2 : cells[i0]? = some cells[i0] := List.getElem?_eq_getElem hi0
      rw [h0] at h2
      exact (Option.some.inj h2).symm
    have hrest : cells.drop (i0 + 1) = rest := by
      have : List.drop 1 (cells.drop i0) = List.drop 1 (x :: rest) := by rw [hdrop]
      rw [List.drop_drop] at this
      simpa using this
    have hfold : ((x :: rest).enumFrom i0).foldl placeStep st
        = (rest.enumFrom (i0 + 1)).foldl placeStep (placeStep st (i0, x)) := rfl
    rw [hfold]
    -- abbreviations
    have hxmem : x ∈ cells := by
      rw [← hx]
      exact List.getElem_mem hi0
    have hpcx_lt : pcI cells i0 x < ccI cells x := by
      have h1 := pcI_le cells (i0 + 1) x
      rw [pcI_succ cells hi0 x, hx] at h1
      simp at h1
      omega
    -- new offset invariant
    have hgetDx : cells[i0]? = some x := by rw [List.getElem?_eq_getElem hi0, hx]
    have hco' : ∀ l, (placeStep st (i0, x)).2 l
        = cumsumF (ccI cells) l - pcI cells (i0 + 1) l := by
      intro l
      show update st.2 x (st.2 x - 1) l = _
      by_cases hlx : l = x
      · subst hlx
        have hpc1 : pcI cells (i0 + 1) l = pcI cells i0 l + 1 := by
          rw [pcI_succ cells hi0 l, hx]
          simp
        rw [update_same, hco l, hpc1]
        omega
      · have hxl : x ≠ l := fun h => hlx h.symm
        have hpc1 : pcI cells (i0 + 1) l = pcI cells i0 l := by
          rw [pcI_succ cells hi0 l, hx]
          simp [hxl]
        rw [update_other _ _ hlx, hco l, hpc1]
    -- new segment invariant
    have hseg' : ∀ l, listSeg (placeStep st (i0, x)).1
        (cumsumF (ccI cells) l - pcI cells (i0 + 1) l) ((cells.take (i0 + 1)).count l)
        = ((List.range (i0 + 1)).filter (fun k => cells.getD k 0 = l)).reverse.map
            (fun (k : ℕ) => (k : ℤ)) := by
      intro l
      show listSeg (update st.1 (st.2 x - 1) (i0 : ℤ)) _ _ = _
      by_cases hlx : l = x
      · subst hlx
        have hpc1 : pcI cells (i0 + 1) l = pcI cells i0 l + 1 := by
          rw [pcI_succ cells hi0 l, hx]
          simp
        have hcnt_succ : (cells.take (i0 + 1)).count l = (cells.take i0).count l + 1 := by
          rw [List.take_succ, hgetDx, List.count_append]
          simp
        have hfilter : (List.range (i0 + 1)).filter (fun k => cells.getD k 0 = l)
            = ((List.range i0).filter (fun k => cells.getD k 0 = l)) ++ [i0] := by
          rw [List.range_succ, List.filter_append]
          refine congrArg₂ _ rfl ?_
          simp [hgetDx]
        rw [hcnt_succ, hfilter, hpc1]
        have harith : cumsumF (ccI cells) l - (pcI cells i0 l + 1)
            = st.2 l - 1 := by rw [hco l]; omega
        rw [harith]
        rw [List.reverse_append, List.reverse_singleton, List.singleton_append,
          List.map_cons]
        rw [listSeg_succ_left]
        refine congrArg₂ _ (update_same _ _ _) ?_
        have hout : listSeg (update st.1 (st.2 l - 1) (i0 : ℤ)) (st.2 l - 1 + 1)
            ((cells.take i0).count l) = listSeg st.1 (st.2 l - 1 + 1)
            ((cells.take i0).count l) := by
          refine listSeg_update_out _ _ _ _ ?_
          intro k hk
          omega
        rw [hout]
        have hstart : st.2 l - 1 + 1 = cumsumF (ccI cells) l - pcI cells i0 l := by
          rw [hco l]; omega
        rw [hstart]
        exact hseg l
      · have hxl : x ≠ l := fun h => hlx h.symm
        have hpc1 : pcI cells (i0 + 1) l = pcI cells i0 l := by
          rw [pcI_succ cells hi0 l, hx]
          simp [hxl]
        have hcnt_succ : (cells.take (i0 + 1)).count l = (cells.take i0).count l := by
          rw [List.take_succ, hgetDx, List.count_append]
          simp [List.count_singleton, hxl]
        have hfilter : (List.range (i0 + 1)).filter (fun k => cells.getD k 0 = l)
            = (List.range i0).filter (fun k => cells.getD k 0 = l) := by
          rw [List.range_succ, List.filter_append]
          have : List.filter (fun k => decide (cells.getD k 0 = l)) [i0] = [] := by
            simp [hgetDx, hxl]
          rw [this, List.append_nil]
        rw [hcnt_succ, hfilter, hpc1]
        have hout : listSeg (update st.1 (st.2 x - 1) (i0 : ℤ))
            (cumsumF (ccI cells) l - pcI cells i0 l) ((cells.take i0).count l)
            = listSeg st.1 (cumsumF (ccI cells) l - pcI cells i0 l)
              ((cells.take i0).count l) := by
          refine listSeg_update_out _ _ _ _ ?_
          intro k hk
          -- the written slot lies in cell x's block, disjoint from cell l's block
          have hk' : 0 < (cells.take i0).count l := by omega
          have hlmem : l ∈ cells := @pcI_pos_mem cells i0 l (by
            show (0 : ℤ) < pcI cells i0 l
            unfold pcI
            exact_mod_cast hk')
          have hl0 : 0 ≤ l := hnn l hlmem
          have hx0 : 0 ≤ x := hnn x hxmem
          have hw := hco x
          have hpc : pcI cells i0 l = ((cells.take i0).count l : ℤ) := rfl
          have hkz : (k : ℤ) < pcI cells i0 l := by rw [hpc]; exact_mod_cast hk
          have hle1 : pcI cells i0 l ≤ ccI cells l := pcI_le cells i0 l
          have hnx : 0 ≤ pcI cells i0 x := pcI_nonneg cells i0 x
          have hcase : l < x ∨ x < l := lt_or_gt_of_ne hlx
          rcases hcase with hlt | hlt
          · have hcum := cumsumF_le_of_lt (ccI cells) (fun u => ccI_nonneg cells u) hl0 hlt
            omega
          · have hcum := cumsumF_le_of_lt (ccI cells) (fun u => ccI_nonneg cells u) hx0 hlt
            omega
        rw [hout]
        exact hseg l
    rcases ih (i0 + 1) (placeStep st (i0, x)) (by omega) hrest hco' hseg' with ⟨h1, h2⟩
    exact ⟨h1, h2⟩

theorem cumsumF_countRun (cells : List ℤ) :
    cumsumF (countRun cells) = cumsumF (ccI cells) := by
  funext l
  unfold cumsumF
  exact Finset.sum_congr rfl (fun k _ => countRun_eq cells _)

theorem placeRun_spec (cells : List ℤ) (hnn : ∀ v ∈ cells, 0 ≤ v) :
    (∀ l, (placeRun cells).2 l = cumsumF (ccI cells) l - ccI cells l) ∧
    (∀ l, listSeg (placeRun cells).1 (cumsumF (ccI cells) l - ccI cells l) (cells.count l)
      = ((List.range cells.length).filter (fun k => cells.getD k 0 = l)).reverse.map
          (fun (k : ℕ) => (k : ℤ))) := by
  refine place_go cells hnn cells 0 (fun _ => 0, cumsumF (countRun cells))
    (by omega) rfl ?_ ?_
  · intro l
    show cumsumF (countRun cells) l = _
    rw [cumsumF_countRun]
    have : pcI cells 0 l = 0 := by unfold pcI; simp
    rw [this]
    ring
  · intro l
    have : pcI cells 0 l = 0 := by unfold pcI; simp
    rw [this]
    simp [listSeg]

/-- The central counting-sort fact: `find_points_in_cell l` on the built grid
is exactly the list of input indices whose cell id is `l`, in reverse input
order. -/
theorem find_points_spec (cells : List ℤ) (hnn : ∀ v ∈ cells, 0 ≤ v) (l : ℤ) :
    find_points_in_cell l (placeRun cells).1 (countRun cells) (placeRun cells).2
      = ((List.range cells.length).filter (fun k => cells.getD k 0 = l)).reverse.map
          (fun (k : ℕ) => (k : ℤ)) := by
  unfold find_points_in_cell
  rw [(placeRun_spec cells hnn).1 l]
  have h1 : (countRun cells l).toNat = cells.count l := by
    rw [countRun_eq]
    unfold ccI
    simp
  rw [h1]
  exact (placeRun_spec cells hnn).2 l

theorem mem_slice {cells : List ℤ} (hnn : ∀ v ∈ cells, 0 ≤ v) (l x : ℤ) :
    x ∈ find_points_in_cell l (placeRun cells).1 (countRun cells) (placeRun cells).2
      ↔ ∃ k : ℕ, k < cells.length ∧ cells.getD k 0 = l ∧ x = (k : ℤ) := by
  rw [find_points_spec cells hnn l]
  simp only [List.mem_map, List.mem_reverse, List.mem_filter, List.mem_range]
  constructor
  · rintro ⟨k, ⟨hk, hp⟩, rfl⟩
    exact ⟨k, hk, by simpa using hp, rfl⟩
  · rintro ⟨k, hk, hp, rfl⟩
    exact ⟨k, ⟨hk, by simpa using hp⟩, rfl⟩

theorem slice_nodup (cells : List ℤ) (hnn : ∀ v ∈ cells, 0 ≤ v) (l : ℤ) :
    (find_points_in_cell l (placeRun cells).1 (countRun cells) (placeRun cells).2).Nodup := by
  rw [find_points_spec cells hnn l]
  refine List.Nodup.map_on (fun a _ b _ h => by exact_mod_cast h) ?_
  exact (List.nodup_reverse.mpr ((List.nodup_range _).filter _))

theorem slice_count (cells : List ℤ) (hnn : ∀ v ∈ cells, 0 ≤ v) (l : ℤ) (k : ℕ) :
    (find_points_in_cell l (placeRun cells).1 (countRun cells) (placeRun cells).2).count
        (k : ℤ)
      = if k < cells.length ∧ cells.getD k 0 = l then 1 else 0 := by
  rw [find_points_spec cells hnn l]
  rw [List.count_map_of_injective _ _ (fun a b h => by exact_mod_cast h)]
  rw [List.count_reverse]
  have hnd : ((List.range cells.length).filter (fun j => cells.getD j 0 = l)).Nodup :=
    (List.nodup_range _).filter _
  by_cases hmem : k ∈ (List.range cells.length).filter (fun j => cells.getD j 0 = l)
  · rw [List.count_eq_one_of_mem hnd hmem]
    rcases List.mem_filter.mp hmem with ⟨h1, h2⟩
    rw [if_pos ⟨List.mem_range.mp h1, by simpa using h2⟩]
  · rw [List.count_eq_zero.mpr hmem]
    rw [if_neg ?_]
    intro hcon
    exact hmem (List.mem_filter.mpr ⟨List.mem_range.mpr hcon.1, by simpa using hcon.2⟩)

theorem slice_count_neg (cells : List ℤ) (hnn : ∀ v ∈ cells, 0 ≤ v) {l x : ℤ} (hx : x < 0) :
    (find_points_in_cell l (placeRun cells).1 (countRun cells) (placeRun cells).2).count x
      = 0 := by
  rw [List.count_eq_zero]
  intro hmem
  rcases (mem_slice hnn l x).mp hmem with ⟨k, _, _, rfl⟩
  omega

theorem slice_empty (cells : List ℤ) {l : ℤ} (hcc : countRun cells l = 0) :
    find_points_in_cell l (placeRun cells).1 (countRun cells) (placeRun cells).2 = [] := by
  unfold find_points_in_cell
  rw [hcc]
  rfl

theorem sum_count_range (cells : List ℤ) {M : ℤ} (hv : ∀ v ∈ cells, 0 ≤ v ∧ v < M) :
    ∑ l in Finset.range M.toNat, cells.count ((l : ℕ) : ℤ) = cells.length := by
  induction cells with
  | nil => simp
  | cons x t ih =>
    have hx := hv x (List.mem_cons_self x t)
    have ht : ∀ v ∈ t, 0 ≤ v ∧ v < M := fun v hvt => hv v (List.mem_cons_of_mem x hvt)
    have hsplit : ∀ l : ℕ, (x :: t).count ((l : ℕ) : ℤ)
        = t.count ((l : ℕ) : ℤ) + (if l = x.toNat then 1 else 0) := by
      intro l
      rw [List.count_cons]
      refine congrArg₂ _ rfl ?_
      by_cases h : x = (l : ℤ)
      · rw [if_pos (by simpa using h), if_pos (by omega)]
      · rw [if_neg (by simpa using h), if_neg (by omega)]
    calc ∑ l in Finset.range M.toNat, (x :: t).count ((l : ℕ) : ℤ)
        = ∑ l in Finset.range M.toNat,
            (t.count ((l : ℕ) : ℤ) + (if l = x.toNat then 1 else 0)) :=
          Finset.sum_congr rfl (fun l _ => hsplit l)
      _ = (∑ l in Finset.range M.toNat, t.count ((l : ℕ) : ℤ))
            + ∑ l in Finset.range M.toNat, (if l = x.toNat then 1 else 0) :=
          Finset.sum_add_distrib
      _ = t.length + 1 := by
          rw [ih ht, Finset.sum_ite_eq' (Finset.range M.toNat) x.toNat (fun _ => 1)]
          rw [if_pos (Finset.mem_range.mpr (by omega))]
      _ = (x :: t).length := by simp

theorem count_filter_range (N : ℕ) (p : ℕ → Prop) [DecidablePred p] (a : ℕ) :
    ((List.range N).filter (fun k => decide (p k))).count a
      = if a < N ∧ p a then 1 else 0 := by
  have hnd : ((List.range N).filter (fun k => decide (p k))).Nodup :=
    (List.nodup_range _).filter _
  by_cases hmem : a ∈ (List.range N).filter (fun k => decide (p k))
  · rw [List.count_eq_one_of_mem hnd hmem]
    rcases List.mem_filter.mp hmem with ⟨h1, h2⟩
    rw [if_pos ⟨List.mem_range.mp h1, by simpa using h2⟩]
  · rw [List.count_eq_zero.mpr hmem]
    rw [if_neg ?_]
    intro hcon
    exact hmem (List.mem_filter.mpr ⟨List.mem_range.mpr hcon.1, by simpa using hcon.2⟩)

theorem flatMap_perm_congr {α β : Type} (s : List α) (f g : α → List β)
    (h : ∀ a ∈ s, (f a).Perm (g a)) : (s.flatMap f).Perm (s.flatMap g) := by
  induction s with
  | nil => exact List.Perm.refl _
  | cons a t ih =>
    rw [List.flatMap_cons, List.flatMap_cons]
    exact (h a (List.mem_cons_self a t)).append
      (ih (fun b hb => h b (List.mem_cons_of_mem a hb)))

/-- The ℕ-level regrouping: sweeping the cells in order and collecting, for
each cell id, the point indices mapped to it is a permutation of `0..N-1`. -/
theorem filter_flatMap_perm (cells : List ℤ) {M : ℤ}
    (hv : ∀ v ∈ cells, 0 ≤ v ∧ v < M) :
    ((List.range M.toNat).flatMap (fun l =>
        (List.range cells.length).filter (fun k => decide (cells.getD k 0 = (l : ℤ))))).Perm
      (List.range cells.length) := by
  rw [List.perm_iff_count]
  intro a
  rw [count_flatMap, sum_map_range]
  have hterm : ∀ l : ℕ,
      ((List.range cells.length).filter (fun k => decide (cells.getD k 0 = (l : ℤ)))).count a
        = if a < cells.length ∧ cells.getD a 0 = (l : ℤ) then 1 else 0 := fun l =>
    count_filter_range cells.length (fun k => cells.getD k 0 = (l : ℤ)) a
  by_cases ha : a < cells.length
  · have hval : cells.getD a 0 ∈ cells := by
      rw [List.getD_eq_getElem _ _ ha]
      exact List.getElem_mem ha
    have hv' := hv _ hval
    calc (∑ l in Finset.range M.toNat, ((List.range cells.length).filter
            (fun k => decide (cells.getD k 0 = (l : ℤ)))).count a)
        = ∑ l in Finset.range M.toNat,
            (if l = (cells.getD a 0).toNat then 1 else 0) := by
          refine Finset.sum_congr rfl (fun l _ => ?_)
          rw [hterm l]
          by_cases h : cells.getD a 0 = (l : ℤ)
          · rw [if_pos ⟨ha, h⟩, if_pos (by omega)]
          · rw [if_neg (fun hc => h hc.2), if_neg (by omega)]
      _ = 1 := by
          rw [Finset.sum_ite_eq' (Finset.range M.toNat) _ (fun _ => 1)]
          rw [if_pos (Finset.mem_range.mpr (by omega))]
      _ = (List.range cells.length).count a := by
          rw [List.count_eq_one_of_mem (List.nodup_range _) (List.mem_range.mpr ha)]
  · have hz : (List.range cells.length).count a = 0 :=
      List.count_eq_zero.mpr (fun h => ha (List.mem_range.mp h))
    rw [hz]
    refine Finset.sum_eq_zero (fun l _ => ?_)
    rw [hterm l, if_neg (fun hc => ha hc.1)]

theorem cumsum_sub_count (cells : List ℤ) (m : ℕ) :
    cumsumF (ccI cells) ((m : ℕ) : ℤ) - ccI cells ((m : ℕ) : ℤ)
      = ((∑ l in Finset.range m, cells.count ((l : ℕ) : ℤ) : ℕ) : ℤ) := by
  unfold cumsumF
  have h1 : ((m : ℤ)).toNat = m := by omega
  rw [h1, Finset.sum_range_succ]
  have h2 : ∀ k : ℕ, ccI cells ((k : ℕ) : ℤ) = ((cells.count ((k : ℕ) : ℤ) : ℕ) : ℤ) :=
    fun k => rfl
  rw [Finset.sum_congr rfl (fun k _ => h2 k)]
  push_cast
  ring

theorem listSeg_tile (cells : List ℤ) (f : ℤ → ℤ) : ∀ m : ℕ,
    listSeg f 0 (∑ l in Finset.range m, cells.count ((l : ℕ) : ℤ))
      = (List.range m).flatMap (fun l =>
          listSeg f (cumsumF (ccI cells) ((l : ℕ) : ℤ) - ccI cells ((l : ℕ) : ℤ))
            (cells.count ((l : ℕ) : ℤ))) := by
  intro m
  induction m with
  | zero => simp [listSeg]
  | succ m ih =>
    rw [Finset.sum_range_succ, listSeg_append, List.range_succ, List.flatMap_append, ih]
    refine congrArg₂ _ rfl ?_
    rw [List.flatMap_cons, List.flatMap_nil, List.append_nil]
    rw [cumsum_sub_count]
    rw [zero_add]

/-- `point_order` is a permutation of `0 .. N-1`. -/
theorem point_order_perm (cells : List ℤ) {M : ℤ} (hv : ∀ v ∈ cells, 0 ≤ v ∧ v < M) :
    ((List.range cells.length).map (fun (k : ℕ) => (placeRun cells).1 ((k : ℕ) : ℤ))).Perm
      ((List.range cells.length).map (fun (k : ℕ) => ((k : ℕ) : ℤ))) := by
  have hnn : ∀ v ∈ cells, 0 ≤ v := fun v h => (hv v h).1
  have step0 : (List.range cells.length).map (fun (k : ℕ) => (placeRun cells).1 ((k : ℕ) : ℤ))
      = listSeg (placeRun cells).1 0 cells.length := by
    unfold listSeg
    exact List.map_congr_left (fun k _ => by rw [zero_add])
  have step1 : cells.length = ∑ l in Finset.range M.toNat, cells.count ((l : ℕ) : ℤ) :=
    (sum_count_range cells hv).symm
  rw [step0]
  rw [show listSeg (placeRun cells).1 0 cells.length
      = listSeg (placeRun cells).1 0 (∑ l in Finset.range M.toNat, cells.count ((l : ℕ) : ℤ))
      from by rw [← step1]]
  rw [listSeg_tile cells (placeRun cells).1 M.toNat]
  have hbranch : ∀ l ∈ List.range M.toNat,
      listSeg (placeRun cells).1
          (cumsumF (ccI cells) ((l : ℕ) : ℤ) - ccI cells ((l : ℕ) : ℤ))
          (cells.count ((l : ℕ) : ℤ))
        = ((List.range cells.length).filter
            (fun k => cells.getD k 0 = ((l : ℕ) : ℤ))).reverse.map (fun (k : ℕ) => (k : ℤ)) :=
    fun l _ => (placeRun_spec cells hnn).2 ((l : ℕ) : ℤ)
  have hstep2 : ((List.range M.toNat).flatMap (fun l =>
      listSeg (placeRun cells).1
        (cumsumF (ccI cells) ((l : ℕ) : ℤ) - ccI cells ((l : ℕ) : ℤ))
        (cells.count ((l : ℕ) : ℤ)))).Perm
      ((List.range M.toNat).flatMap (fun l =>
        ((List.range cells.length).filter
          (fun k => cells.getD k 0 = ((l : ℕ) : ℤ))).map (fun (k : ℕ) => (k : ℤ)))) := by
    refine flatMap_perm_congr _ _ _ (fun l hl => ?_)
    rw [hbranch l hl]
    exact (List.reverse_perm _).map _
  refine hstep2.trans ?_
  have hstep3 : (List.range M.toNat).flatMap (fun l =>
      ((List.range cells.length).filter
        (fun k => cells.getD k 0 = ((l : ℕ) : ℤ))).map (fun (k : ℕ) => (k : ℤ)))
      = ((List.range M.toNat).flatMap (fun l =>
          (List.range cells.length).filter
            (fun k => cells.getD k 0 = ((l : ℕ) : ℤ)))).map (fun (k : ℕ) => (k : ℤ)) := by
    rw [List.map_flatMap]
  rw [hstep3]
  exact (filter_flatMap_perm cells hv).map _

/-! ## Grid geometry: extents, shape, interior coordinates -/

theorem cellOf_length (cs : ℚ) (r : List ℚ) : (cellOf cs r).length = r.length := by
  simp [cellOf]

theorem foldl_zip_length (op : ℤ → ℤ → ℤ) (cs : ℚ) :
    ∀ (rs : List (List ℚ)) (acc : List ℤ), (∀ r ∈ rs, r.length = acc.length) →
      (rs.foldl (fun a r => List.zipWith op a (cellOf cs r)) acc).length = acc.length := by
  intro rs
  induction rs with
  | nil => intro acc _; rfl
  | cons r rs ih =>
    intro acc hlen
    rw [List.foldl_cons]
    have h1 : (List.zipWith op acc (cellOf cs r)).length = acc.length := by
      rw [List.length_zipWith, cellOf_length, hlen r (List.mem_cons_self r rs)]
      omega
    rw [ih _ (fun u hu => by rw [hlen u (List.mem_cons_of_mem r hu), h1]), h1]

theorem foldl_zipmin_le (cs : ℚ) :
    ∀ (rs : List (List ℚ)) (acc : List ℤ), (∀ r ∈ rs, r.length = acc.length) →
    ∀ d, d < acc.length →
      (rs.foldl (fun a r => List.zipWith min a (cellOf cs r)) acc).getD d 0 ≤ acc.getD d 0 ∧
      ∀ r ∈ rs, (rs.foldl (fun a r => List.zipWith min a (cellOf cs r)) acc).getD d 0
        ≤ (cellOf cs r).getD d 0 := by
  intro rs
  induction rs with
  | nil =>
    intro acc _ d hd
    exact ⟨le_refl _, fun r hr => absurd hr (List.not_mem_nil r)⟩
  | cons r rs ih =>
    intro acc hlen d hd
    rw [List.foldl_cons]
    have hlr : (cellOf cs r).length = acc.length := by
      rw [cellOf_length]; exact hlen r (List.mem_cons_self r rs)
    have h1 : (List.zipWith min acc (cellOf cs r)).length = acc.length := by
      rw [List.length_zipWith]; omega
    have hmem : ∀ u ∈ rs, u.length = (List.zipWith min acc (cellOf cs r)).length := by
      intro u hu
      rw [h1]; exact hlen u (List.mem_cons_of_mem r hu)
    have hd1 : d < (List.zipWith min acc (cellOf cs r)).length := by omega
    rcases ih (List.zipWith min acc (cellOf cs r)) hmem d hd1 with ⟨ha, hb⟩
    have hgz : (List.zipWith min acc (cellOf cs r)).getD d 0
        = min (acc.getD d 0) ((cellOf cs r).getD d 0) := by
      rw [List.getD_eq_getElem _ _ hd1, List.getD_eq_getElem _ _ hd,
        List.getD_eq_getElem _ _ (by omega), List.getElem_zipWith]
    constructor
    · calc _ ≤ _ := ha
        _ ≤ _ := by rw [hgz]; exact min_le_left _ _
    · intro u hu
      rcases List.mem_cons.mp hu with rfl | hu'
      · calc _ ≤ _ := ha
          _ ≤ _ := by rw [hgz]; exact min_le_right _ _
      · exact hb u hu'

theorem foldl_zipmax_ge (cs : ℚ) :
    ∀ (rs : List (List ℚ)) (acc : List ℤ), (∀ r ∈ rs, r.length = acc.length) →
    ∀ d, d < acc.length →
      acc.getD d 0 ≤ (rs.foldl (fun a r => List.zipWith max a (cellOf cs r)) acc).getD d 0 ∧
      ∀ r ∈ rs, (cellOf cs r).getD d 0
        ≤ (rs.foldl (fun a r => List.zipWith max a (cellOf cs r)) acc).getD d 0 := by
  intro rs
  induction rs with
  | nil =>
    intro acc _ d hd
    exact ⟨le_refl _, fun r hr => absurd hr (List.not_mem_nil r)⟩
  | cons r rs ih =>
    intro acc hlen d hd
    rw [List.foldl_cons]
    have hlr : (cellOf cs r).length = acc.length := by
      rw [cellOf_length]; exact hlen r (List.mem_cons_self r rs)
    have h1 : (List.zipWith max acc (cellOf cs r)).length = acc.length := by
      rw [List.length_zipWith]; omega
    have hmem : ∀ u ∈ rs, u.length = (List.zipWith max acc (cellOf cs r)).length := by
      intro u hu
      rw [h1]; exact hlen u (List.mem_cons_of_mem r hu)
    have hd1 : d < (List.zipWith max acc (cellOf cs r)).length := by omega
    rcases ih (List.zipWith max acc (cellOf cs r)) hmem d hd1 with ⟨ha, hb⟩
    have hgz : (List.zipWith max acc (cellOf cs r)).getD d 0
        = max (acc.getD d 0) ((cellOf cs r).getD d 0) := by
      rw [List.getD_eq_getElem _ _ hd1, List.getD_eq_getElem _ _ hd,
        List.getD_eq_getElem _ _ (by omega), List.getElem_zipWith]
    constructor
    · calc _ ≤ _ := by rw [hgz]; exact le_max_left _ _
        _ ≤ _ := ha
    · intro u hu
      rcases List.mem_cons.mp hu with rfl | hu'
      · calc _ ≤ _ := by rw [hgz]; exact le_max_right _ _
          _ ≤ _ := ha
      · exact hb u hu'

theorem headD_mem {pts : List (List ℚ)} (hne : pts ≠ []) : pts.headD [] ∈ pts := by
  match pts with
  | [] => exact absurd rfl hne
  | p :: rest => exact List.mem_cons_self p rest

theorem xminL_length {pts : List (List ℚ)} (cs : ℚ) {D : ℕ} (hne : pts ≠ [])
    (hrect : ∀ r ∈ pts, r.length = D) : (xminL pts cs).length = D := by
  match pts with
  | p :: rest =>
    unfold xminL
    have h0 : (cellOf cs ((p :: rest).headD [])).length = D := by
      rw [cellOf_length]
      exact hrect p (List.mem_cons_self p rest)
    rw [show (p :: rest).tail = rest from rfl]
    rw [foldl_zip_length min cs rest _ (fun r hr => by
      rw [h0]; exact hrect r (List.mem_cons_of_mem p hr))]
    exact h0

theorem xmaxL_length {pts : List (List ℚ)} (cs : ℚ) {D : ℕ} (hne : pts ≠ [])
    (hrect : ∀ r ∈ pts, r.length = D) : (xmaxL pts cs).length = D := by
  match pts with
  | p :: rest =>
    unfold xmaxL
    have h0 : (cellOf cs ((p :: rest).headD [])).length = D := by
      rw [cellOf_length]
      exact hrect p (List.mem_cons_self p rest)
    rw [show (p :: rest).tail = rest from rfl]
    rw [foldl_zip_length max cs rest _ (fun r hr => by
      rw [h0]; exact hrect r (List.mem_cons_of_mem p hr))]
    exact h0

theorem xminL_le_cell {pts : List (List ℚ)} (cs : ℚ) {D : ℕ} (hne : pts ≠ [])
    (hrect : ∀ r ∈ pts, r.length = D) :
    ∀ r ∈ pts, ∀ d, d < D →
      (xminL pts cs).getD d 0 ≤ (cellOf cs r).getD d 0 := by
  match pts with
  | p :: rest =>
    intro r hr d hd
    have h0 : (cellOf cs ((p :: rest).headD [])).length = D := by
      rw [cellOf_length]
      exact hrect p (List.mem_cons_self p rest)
    have hlen : ∀ u ∈ rest, u.length = (cellOf cs ((p :: rest).headD [])).length := by
      intro u hu
      rw [h0]
      exact hrect u (List.mem_cons_of_mem p hu)
    have hmain := foldl_zipmin_le cs rest (cellOf cs ((p :: rest).headD []))
      hlen d (by omega)
    unfold xminL
    rw [show (p :: rest).tail = rest from rfl]
    rcases List.mem_cons.mp hr with rfl | hr'
    · exact hmain.1
    · exact hmain.2 r hr'

theorem cell_le_xmaxL {pts : List (List ℚ)} (cs : ℚ) {D : ℕ} (hne : pts ≠ [])
    (hrect : ∀ r ∈ pts, r.length = D) :
    ∀ r ∈ pts, ∀ d, d < D →
      (cellOf cs r).getD d 0 ≤ (xmaxL pts cs).getD d 0 := by
  match pts with
  | p :: rest =>
    intro r hr d hd
    have h0 : (cellOf cs ((p :: rest).headD [])).length = D := by
      rw [cellOf_length]
      exact hrect p (List.mem_cons_self p rest)
    have hlen : ∀ u ∈ rest, u.length = (cellOf cs ((p :: rest).headD [])).length := by
      intro u hu
      rw [h0]
      exact hrect u (List.mem_cons_of_mem p hu)
    have hmain := foldl_zipmax_ge cs rest (cellOf cs ((p :: rest).headD []))
      hlen d (by omega)
    unfold xmaxL
    rw [show (p :: rest).tail = rest from rfl]
    rcases List.mem_cons.mp hr with rfl | hr'
    · exact hmain.1
    · exact hmain.2 r hr'

theorem gridShape_length {pts : List (List ℚ)} (cs : ℚ) {D : ℕ} (hne : pts ≠ [])
    (hrect : ∀ r ∈ pts, r.length = D) : (gridShape pts cs).length = D := by
  unfold gridShape
  rw [List.length_zipWith, xminL_length cs hne hrect, xmaxL_length cs hne hrect]
  omega

theorem gridShape_getD {pts : List (List ℚ)} (cs : ℚ) {D : ℕ} (hne : pts ≠ [])
    (hrect : ∀ r ∈ pts, r.length = D) {d : ℕ} (hd : d < D) :
    (gridShape pts cs).getD d 0 = (xmaxL pts cs).getD d 0 - (xminL pts cs).getD d 0 + 3 := by
  unfold gridShape
  have h1 : d < (List.zipWith (fun mx mn => mx - mn + 3) (xmaxL pts cs) (xminL pts cs)).length := by
    rw [List.length_zipWith, xminL_length cs hne hrect, xmaxL_length cs hne hrect]
    omega
  rw [List.getD_eq_getElem _ _ h1, List.getElem_zipWith,
    List.getD_eq_getElem _ _ (by rw [xmaxL_length cs hne hrect]; omega),
    List.getD_eq_getElem _ _ (by rw [xminL_length cs hne hrect]; omega)]

theorem gridShape_ge3 {pts : List (List ℚ)} (cs : ℚ) {D : ℕ} (hne : pts ≠ [])
    (hrect : ∀ r ∈ pts, r.length = D) : ∀ s ∈ gridShape pts cs, 3 ≤ s := by
  intro s hs
  rcases List.mem_iff_getElem.mp hs with ⟨d, hd, rfl⟩
  have hdD : d < D := by
    have := gridShape_length cs hne hrect
    omega
  rw [← List.getD_eq_getElem _ 0 hd, gridShape_getD cs hne hrect hdD]
  have h1 := xminL_le_cell cs hne hrect (pts.headD []) (headD_mem hne) d hdD
  have h2 := cell_le_xmaxL cs hne hrect (pts.headD []) (headD_mem hne) d hdD
  omega

theorem normCoord_length {pts : List (List ℚ)} (cs : ℚ) {D : ℕ} (hne : pts ≠ [])
    (hrect : ∀ r ∈ pts, r.length = D) {r : List ℚ} (hr : r ∈ pts) :
    (normCoord pts cs r).length = D := by
  unfold normCoord
  rw [List.length_zipWith, cellOf_length, hrect r hr, xminL_length cs hne hrect]
  omega

theorem normCoord_getD {pts : List (List ℚ)} (cs : ℚ) {D : ℕ} (hne : pts ≠ [])
    (hrect : ∀ r ∈ pts, r.length = D) {r : List ℚ} (hr : r ∈ pts) {d : ℕ} (hd : d < D) :
    (normCoord pts cs r).getD d 0
      = (cellOf cs r).getD d 0 - (xminL pts cs).getD d 0 + 1 := by
  unfold normCoord
  have h1 : d < (List.zipWith (fun c mn => c - mn + 1) (cellOf cs r) (xminL pts cs)).length := by
    rw [List.length_zipWith, cellOf_length, hrect r hr, xminL_length cs hne hrect]
    omega
  rw [List.getD_eq_getElem _ _ h1, List.getElem_zipWith,
    List.getD_eq_getElem _ _ (by rw [cellOf_length, hrect r hr]; omega),
    List.getD_eq_getElem _ _ (by rw [xminL_length cs hne hrect]; omega)]

theorem normCoord_interior {pts : List (List ℚ)} (cs : ℚ) {D : ℕ} (hne : pts ≠ [])
    (hrect : ∀ r ∈ pts, r.length = D) {r : List ℚ} (hr : r ∈ pts) :
    Interior (normCoord pts cs r) (gridShape pts cs) := by
  rw [Interior, List.forall₂_iff_get]
  refine ⟨by rw [normCoord_length cs hne hrect hr, gridShape_length cs hne hrect], ?_⟩
  intro d h1 h2
  have hdD : d < D := by
    have := normCoord_length cs hne hrect hr
    omega
  rw [List.get_eq_getElem, List.get_eq_getElem,
    ← List.getD_eq_getElem _ 0 h1, ← List.getD_eq_getElem _ 0 h2]
  rw [normCoord_getD cs hne hrect hr hdD, gridShape_getD cs hne hrect hdD]
  have hmin := xminL_le_cell cs hne hrect r hr d hdD
  have hmax := cell_le_xmaxL cs hne hrect r hr d hdD
  omega

theorem cellsList_length (pts : List (List ℚ)) (cs : ℚ) :
    (cellsList pts cs).length = pts.length := by
  simp [cellsList]

theorem cellsList_getD {pts : List (List ℚ)} {cs : ℚ} {i : ℕ} (hi : i < pts.length) :
    (cellsList pts cs).getD i 0
      = mixedRadix (gridShape pts cs) (normCoord pts cs (pts.getD i [])) := by
  unfold cellsList
  rw [List.getD_eq_getElem _ _ (by rw [List.length_map]; omega), List.getElem_map,
    List.getD_eq_getElem _ _ hi]

theorem cells_range {pts : List (List ℚ)} (cs : ℚ) {D : ℕ} (hne : pts ≠ [])
    (hrect : ∀ r ∈ pts, r.length = D) :
    ∀ v ∈ cellsList pts cs, 0 ≤ v ∧ v < gridSize pts cs := by
  intro v hv
  rcases List.mem_map.mp hv with ⟨r, hr, rfl⟩
  have hint := normCoord_interior cs hne hrect hr
  have hfull : FullBox (normCoord pts cs r) (gridShape pts cs) :=
    List.Forall₂.imp (fun a b h => ⟨by omega, by omega⟩) hint
  exact mixedRadix_range hfull

/-! ## Offsets of radius 1 against interior cells -/

theorem interior_fullBox {t sh : List ℤ} (h : Interior t sh) : FullBox t sh :=
  List.Forall₂.imp (fun a b hab => ⟨by omega, by omega⟩) h

theorem interior_length {t sh : List ℤ} (h : Interior t sh) : t.length = sh.length :=
  h.length_eq

theorem halfTail_unit {D : ℕ} {δ : List ℤ} (h : δ ∈ halfTail D 1) :
    δ.length = D ∧ UnitBox δ := by
  have := mem_prodAll.mp (mem_halfTail_mem_prodAll h)
  exact ⟨this.1, fun x hx => by have := this.2 x hx; simpa using this⟩

theorem interior_add_unit : ∀ {t sh δ : List ℤ}, Interior t sh → UnitBox δ →
    δ.length = t.length → FullBox (List.zipWith (· + ·) t δ) sh := by
  intro t sh δ h
  induction h generalizing δ with
  | nil =>
    intro _ hlen
    rw [List.length_nil] at hlen
    rw [List.eq_nil_of_length_eq_zero hlen]
    exact List.Forall₂.nil
  | @cons x s t sh hxs htl ih =>
    intro hu hlen
    match δ with
    | [] => simp at hlen
    | z :: δ =>
      rw [List.zipWith_cons_cons]
      refine List.Forall₂.cons ?_ (ih (fun y hy => hu y (List.mem_cons_of_mem z hy))
        (by simpa using hlen))
      have hz := hu z (List.mem_cons_self z δ)
      omega

theorem mem_neighboring {gs : List ℤ} {r : ℕ} {o : ℤ} :
    o ∈ neighboring_cells gs r ↔ ∃ δ ∈ halfTail gs.length r, mixedRadix gs δ = o := by
  simp [neighboring_cells]

theorem offsets_nodup {gs : List ℤ} (h3 : ∀ s ∈ gs, 3 ≤ s) :
    (neighboring_cells gs 1).Nodup := by
  unfold neighboring_cells
  refine List.Nodup.map_on ?_ (halfTail_nodup gs.length 1)
  intro t1 h1 t2 h2 heq
  rcases halfTail_unit h1 with ⟨hl1, hu1⟩
  rcases halfTail_unit h2 with ⟨hl2, hu2⟩
  exact mixedRadix_inj_unit hl1 hl2 h3 hu1 hu2 heq

theorem offsets_ne_zero {gs : List ℤ} (h3 : ∀ s ∈ gs, 3 ≤ s) {o : ℤ}
    (ho : o ∈ neighboring_cells gs 1) : o ≠ 0 := by
  rcases mem_neighboring.mp ho with ⟨δ, hδ, rfl⟩
  rcases halfTail_unit hδ with ⟨hl, hu⟩
  intro h0
  have hz : mixedRadix gs (List.replicate gs.length 0) = 0 := mixedRadix_zero gs
  have hrep : (List.replicate gs.length (0 : ℤ)).length = gs.length := by simp
  have hurep : UnitBox (List.replicate gs.length (0 : ℤ)) := by
    intro x hx
    rw [List.eq_of_mem_replicate hx]
    omega
  have := mixedRadix_inj_unit hl hrep h3 hu hurep (by rw [h0, hz])
  rw [this] at hδ
  rw [← hl] at hδ
  rw [this] at hδ
  simp only [List.length_replicate] at hδ
  exact replicate_zero_not_mem_halfTail gs.length 1 hδ

theorem zip_add_sub {a b : List ℤ} (h : a.length = b.length) :
    List.zipWith (· + ·) a (List.zipWith (· - ·) b a) = b := by
  refine List.ext_getElem ?_ ?_
  · rw [List.length_zipWith, List.length_zipWith]
    omega
  · intro d h1 h2
    rw [List.getElem_zipWith, List.getElem_zipWith]
    ring

theorem add_eq_imp_sub {a δ b : List ℤ} (hlen : δ.length = a.length)
    (hab : a.length = b.length) (h : List.zipWith (· + ·) a δ = b) :
    δ = List.zipWith (· - ·) b a := by
  refine List.ext_getElem ?_ ?_
  · rw [List.length_zipWith]
    omega
  · intro d h1 h2
    have hd : d < (List.zipWith (· + ·) a δ).length := by
      rw [List.length_zipWith]
      omega
    have := congrArg (fun (t : List ℤ) => t.getD d 0) h
    simp only at this
    rw [List.getD_eq_getElem _ _ hd, List.getD_eq_getElem _ _ (by omega),
      List.getElem_zipWith] at this
    rw [List.getElem_zipWith]
    omega

theorem map_neg_sub {a b : List ℤ} :
    (List.zipWith (· - ·) b a).map (fun x => -x) = List.zipWith (· - ·) a b := by
  refine List.ext_getElem ?_ ?_
  · rw [List.length_map, List.length_zipWith, List.length_zipWith]
    omega
  · intro d h1 h2
    rw [List.getElem_map, List.getElem_zipWith, List.getElem_zipWith]
    ring

/-- Counting how often the flattened difference of two interior cells occurs
among the radius-1 offsets: once if the coordinate difference is a kept
half-neighborhood tuple, never otherwise. -/
theorem offsets_count {gs : List ℤ} (h3 : ∀ s ∈ gs, 3 ≤ s) {a b : List ℤ}
    (ha : Interior a gs) (hb : Interior b gs) :
    (neighboring_cells gs 1).count (mixedRadix gs b - mixedRadix gs a)
      = if List.zipWith (· - ·) b a ∈ halfTail gs.length 1 then 1 else 0 := by
  have hla : a.length = gs.length := interior_length ha
  have hlb : b.length = gs.length := interior_length hb
  have hlsub : (List.zipWith (· - ·) b a).length = gs.length := by
    rw [List.length_zipWith]
    omega
  have henc : mixedRadix gs (List.zipWith (· - ·) b a)
      = mixedRadix gs b - mixedRadix gs a := by
    have hadd := @mixedRadix_add a (List.zipWith (· - ·) b a) gs hla hlsub
    rw [zip_add_sub (hla.trans hlb.symm)] at hadd
    omega
  by_cases hmem : List.zipWith (· - ·) b a ∈ halfTail gs.length 1
  · rw [if_pos hmem]
    refine List.count_eq_one_of_mem (offsets_nodup h3) ?_
    exact mem_neighboring.mpr ⟨_, hmem, henc⟩
  · rw [if_neg hmem]
    rw [List.count_eq_zero]
    intro hcon
    rcases mem_neighboring.mp hcon with ⟨δ, hδ, heq⟩
    rcases halfTail_unit hδ with ⟨hl, hu⟩
    have hbox1 : FullBox (List.zipWith (· + ·) a δ) gs :=
      interior_add_unit ha hu (by omega)
    have hbox2 : FullBox b gs := interior_fullBox hb
    have henc2 : mixedRadix gs (List.zipWith (· + ·) a δ) = mixedRadix gs b := by
      rw [mixedRadix_add hla (by omega), heq]
      omega
    have hab := mixedRadix_inj hbox1 hbox2 henc2
    have hδeq := add_eq_imp_sub (by omega) (hla.trans hlb.symm) hab
    rw [← hδeq] at hmem
    exact hmem hδ

/-! ## Counting pairs in the enumeration -/

theorem slice_empty_of_cc {cell : ℤ} (pi cc co : ℤ → ℤ) (h : cc cell = 0) :
    find_points_in_cell cell pi cc co = [] := by
  unfold find_points_in_cell
  rw [h]
  rfl

/-- The number of occurrences of a pair in the enumeration, cell by cell:
the intra-cell pairs of the current cell plus, for each offset, the product
of occurrence counts in the current and the offset cell. -/
theorem iter_count (cell_indices neigh : List ℤ) (pi cc co : ℤ → ℤ) (p : ℤ × ℤ) :
    (iter_nearest_neighbors cell_indices neigh pi cc co).count p
      = (cell_indices.map (fun c =>
          (intra (find_points_in_cell c pi cc co)).count p
          + (neigh.map (fun o => (find_points_in_cell c pi cc co).count p.1
              * (find_points_in_cell (c + o) pi cc co).count p.2)).sum)).sum := by
  obtain ⟨x, y⟩ := p
  unfold iter_nearest_neighbors
  rw [count_flatMap]
  refine congrArg _ (List.map_congr_left fun c _ => ?_)
  by_cases hc : cc c = 0
  · rw [if_pos hc, slice_empty_of_cc pi cc co hc]
    simp [intra]
  · rw [if_neg hc, List.count_append, count_flatMap]
    refine congrArg₂ _ rfl (congrArg _ (List.map_congr_left fun o _ => ?_))
    rw [count_cross]

theorem count_as_sum (l : List ℤ) (t : ℤ) :
    (l.map (fun o => if o = t then 1 else 0)).sum = l.count t := by
  induction l with
  | nil => rfl
  | cons a u ih =>
    rw [List.map_cons, List.sum_cons, ih, List.count_cons]
    simp only [beq_iff_eq]
    by_cases h : a = t
    · rw [if_pos h]
      omega
    · rw [if_neg h]
      omega

theorem sum_map_cast_pick (M' : ℕ) (A : ℤ) (h0 : 0 ≤ A) (hM : A < (M' : ℤ)) (f : ℤ → ℕ) :
    (((List.range M').map (fun (k : ℕ) => (k : ℤ))).map
      (fun c => if c = A then f c else 0)).sum = f A := by
  rw [List.map_map, sum_map_range]
  have hcong : ∀ k ∈ Finset.range M',
      ((fun c => if c = A then f c else 0) ∘ (fun (k : ℕ) => (k : ℤ))) k
        = if k = A.toNat then f (k : ℤ) else 0 := by
    intro k _
    simp only [Function.comp]
    by_cases h : (k : ℤ) = A
    · rw [if_pos h, if_pos (by omega)]
    · rw [if_neg h, if_neg (by omega)]
  rw [Finset.sum_congr rfl hcong]
  rw [Finset.sum_ite_eq' (Finset.range M') A.toNat (fun k => f (k : ℤ))]
  rw [if_pos (Finset.mem_range.mpr (by omega))]
  rw [Int.toNat_of_nonneg h0]

theorem sum_map_cast_zero (M' : ℕ) (f : ℤ → ℕ) (h : ∀ c, f c = 0) :
    (((List.range M').map (fun (k : ℕ) => (k : ℤ))).map f).sum = 0 := by
  refine List.sum_eq_zero ?_
  intro x hx
  rcases List.mem_map.mp hx with ⟨c, _, rfl⟩
  exact h c

theorem mem_zipWith_getD {f : ℤ → ℤ → ℤ} {a b : List ℤ} (hab : a.length = b.length) {x : ℤ} :
    x ∈ List.zipWith f a b ↔ ∃ d, d < a.length ∧ x = f (a.getD d 0) (b.getD d 0) := by
  constructor
  · intro hx
    rcases List.mem_iff_getElem.mp hx with ⟨d, hd, rfl⟩
    have hd' : d < a.length := by
      rw [List.length_zipWith] at hd
      omega
    refine ⟨d, hd', ?_⟩
    rw [List.getElem_zipWith, List.getD_eq_getElem _ _ hd',
      List.getD_eq_getElem _ _ (by omega)]
  · rintro ⟨d, hd, rfl⟩
    have hdz : d < (List.zipWith f a b).length := by
      rw [List.length_zipWith]
      omega
    refine List.mem_iff_getElem.mpr ⟨d, hdz, ?_⟩
    rw [List.getElem_zipWith, List.getD_eq_getElem _ _ hd,
      List.getD_eq_getElem _ _ (by omega)]

theorem sub_zero_imp_eq {a b : List ℤ} (h : a.length = b.length)
    (hz : List.zipWith (· - ·) b a = List.replicate a.length 0) : a = b := by
  refine List.ext_getElem h ?_
  intro d h1 h2
  have hd : d < (List.zipWith (· - ·) b a).length := by
    rw [List.length_zipWith]
    omega
  have := congrArg (fun (t : List ℤ) => t.getD d 0) hz
  simp only at this
  rw [List.getD_eq_getElem _ _ hd, List.getElem_zipWith,
    List.getD_eq_getElem _ _ (by simpa using h1), List.getElem_replicate] at this
  omega

theorem sum_map_add {α : Type} (l : List α) (f g : α → ℕ) :
    (l.map (fun x => f x + g x)).sum = (l.map f).sum + (l.map g).sum := by
  induction l with
  | nil => rfl
  | cons a t ih =>
    simp only [List.map_cons, List.sum_cons, ih]
    omega

/-- Two cells of actual points are equal or Chebyshev-adjacent exactly when
the difference of their normalized coordinates is a unit offset. -/
theorem cheb_iff_unit {pts : List (List ℚ)} (cs : ℚ) {D : ℕ} (hne : pts ≠ [])
    (hrect : ∀ r ∈ pts, r.length = D) {ri rj : List ℚ} (hri : ri ∈ pts) (hrj : rj ∈ pts) :
    chebDist (cellOf cs ri) (cellOf cs rj) ≤ 1
      ↔ UnitBox (List.zipWith (· - ·) (normCoord pts cs rj) (normCoord pts cs ri)) := by
  have hlenI : (cellOf cs ri).length = D := by rw [cellOf_length, hrect ri hri]
  have hlenJ : (cellOf cs rj).length = D := by rw [cellOf_length, hrect rj hrj]
  have hncI : (normCoord pts cs ri).length = D := normCoord_length cs hne hrect hri
  have hncJ : (normCoord pts cs rj).length = D := normCoord_length cs hne hrect hrj
  have hdiff : ∀ d, d < D → (normCoord pts cs rj).getD d 0 - (normCoord pts cs ri).getD d 0
      = (cellOf cs rj).getD d 0 - (cellOf cs ri).getD d 0 := by
    intro d hd
    rw [normCoord_getD cs hne hrect hri hd, normCoord_getD cs hne hrect hrj hd]
    ring
  unfold chebDist
  rw [foldr_max_le]
  constructor
  · rintro ⟨-, hall⟩
    intro x hx
    rcases (mem_zipWith_getD (by omega)).mp hx with ⟨d, hd, rfl⟩
    rw [hncJ] at hd
    have hmem : |(cellOf cs ri).getD d 0 - (cellOf cs rj).getD d 0|
        ∈ List.zipWith (fun u v => |u - v|) (cellOf cs ri) (cellOf cs rj) :=
      (mem_zipWith_getD (by omega)).mpr ⟨d, by omega, rfl⟩
    have := hall _ hmem
    have hd2 := hdiff d hd
    rw [abs_le] at this
    omega
  · intro hu
    refine ⟨by omega, ?_⟩
    intro x hx
    rcases (mem_zipWith_getD (by omega)).mp hx with ⟨d, hd, rfl⟩
    rw [hlenI] at hd
    have hmem : (normCoord pts cs rj).getD d 0 - (normCoord pts cs ri).getD d 0
        ∈ List.zipWith (· - ·) (normCoord pts cs rj) (normCoord pts cs ri) :=
      (mem_zipWith_getD (by omega)).mpr ⟨d, by omega, rfl⟩
    have := hu _ hmem
    have hd2 := hdiff d hd
    rw [abs_le]
    omega

/-- Core counting statement for the pair enumeration: every unordered pair
of distinct points in equal or Chebyshev-adjacent cells is emitted exactly
once (in one of the two orders), any other pair never, and no reflexive
pair is ever emitted. -/
theorem pair_count_core {pts : List (List ℚ)} (cs : ℚ) {D : ℕ} (hne : pts ≠ [])
    (hrect : ∀ r ∈ pts, r.length = D) :
    (∀ i j : ℕ, i < j →
      (builtPairs pts cs).count ((i : ℤ), (j : ℤ))
        + (builtPairs pts cs).count ((j : ℤ), (i : ℤ))
        = if j < pts.length ∧
            chebDist (cellOf cs (pts.getD i [])) (cellOf cs (pts.getD j [])) ≤ 1
          then 1 else 0) ∧
    (∀ x : ℤ, (builtPairs pts cs).count (x, x) = 0) := by
  have hvr : ∀ v ∈ cellsList pts cs, 0 ≤ v ∧ v < gridSize pts cs :=
    cells_range cs hne hrect
  have hnn : ∀ v ∈ cellsList pts cs, 0 ≤ v := fun v h => (hvr v h).1
  have h3 : ∀ s ∈ gridShape pts cs, 3 ≤ s := gridShape_ge3 cs hne hrect
  have hgsl : (gridShape pts cs).length = D := gridShape_length cs hne hrect
  have hNl : (cellsList pts cs).length = pts.length := cellsList_length pts cs
  have hiterEq : ∀ p : ℤ × ℤ, (builtPairs pts cs).count p
      = (((List.range (gridSize pts cs).toNat).map (fun (k : ℕ) => (k : ℤ))).map (fun c =>
          (intra (find_points_in_cell c (placeRun (cellsList pts cs)).1
            (countRun (cellsList pts cs)) (placeRun (cellsList pts cs)).2)).count p
          + ((neighboring_cells (gridShape pts cs) 1).map (fun o =>
              (find_points_in_cell c (placeRun (cellsList pts cs)).1
                (countRun (cellsList pts cs)) (placeRun (cellsList pts cs)).2).count p.1
              * (find_points_in_cell (c + o) (placeRun (cellsList pts cs)).1
                  (countRun (cellsList pts cs)) (placeRun (cellsList pts cs)).2).count p.2)).sum)).sum :=
    fun p => iter_count _ _ _ _ _ p
  have hmemS : ∀ (k : ℕ) (c : ℤ),
      ((k : ℤ) ∈ find_points_in_cell c (placeRun (cellsList pts cs)).1
        (countRun (cellsList pts cs)) (placeRun (cellsList pts cs)).2)
      ↔ (k < pts.length ∧ (cellsList pts cs).getD k 0 = c) := by
    intro k c
    rw [mem_slice hnn]
    constructor
    · rintro ⟨k', hk', hc, hkk⟩
      have hkeq : k = k' := by exact_mod_cast hkk
      subst hkeq
      rw [hNl] at hk'
      exact ⟨hk', hc⟩
    · rintro ⟨h1, h2⟩
      exact ⟨k, by rwa [hNl], h2, rfl⟩
  have hcountS : ∀ (k : ℕ) (c : ℤ),
      (find_points_in_cell c (placeRun (cellsList pts cs)).1
        (countRun (cellsList pts cs)) (placeRun (cellsList pts cs)).2).count (k : ℤ)
      = if k < pts.length ∧ (cellsList pts cs).getD k 0 = c then 1 else 0 := by
    intro k c
    rw [slice_count _ hnn, hNl]
  constructor
  · -- the unordered pair count
    intro i j hij
    rw [hiterEq, hiterEq]
    by_cases hjN : j < pts.length
    · have hiN : i < pts.length := by omega
      have hri : pts.getD i [] ∈ pts := by
        rw [List.getD_eq_getElem _ _ hiN]
        exact List.getElem_mem hiN
      have hrj : pts.getD j [] ∈ pts := by
        rw [List.getD_eq_getElem _ _ hjN]
        exact List.getElem_mem hjN
      have hAenc : (cellsList pts cs).getD i 0
          = mixedRadix (gridShape pts cs) (normCoord pts cs (pts.getD i [])) :=
        cellsList_getD hiN
      have hBenc : (cellsList pts cs).getD j 0
          = mixedRadix (gridShape pts cs) (normCoord pts cs (pts.getD j [])) :=
        cellsList_getD hjN
      have hAmem : (cellsList pts cs).getD i 0 ∈ cellsList pts cs := by
        rw [List.getD_eq_getElem _ _ (by omega)]
        exact List.getElem_mem (by omega)
      have hBmem : (cellsList pts cs).getD j 0 ∈ cellsList pts cs := by
        rw [List.getD_eq_getElem _ _ (by omega)]
        exact List.getElem_mem (by omega)
      have hA0 := hvr _ hAmem
      have hB0 := hvr _ hBmem
      have hIi := normCoord_interior cs hne hrect hri
      have hIj := normCoord_interior cs hne hrect hrj
      have hgsNN : (((gridSize pts cs).toNat : ℕ) : ℤ) = gridSize pts cs :=
        Int.toNat_of_nonneg (by omega)
      have hSi : ∀ c, (find_points_in_cell c (placeRun (cellsList pts cs)).1
          (countRun (cellsList pts cs)) (placeRun (cellsList pts cs)).2).count (i : ℤ)
          = if (cellsList pts cs).getD i 0 = c then 1 else 0 := by
        intro c
        rw [hcountS i c]
        by_cases h : (cellsList pts cs).getD i 0 = c
        · rw [if_pos ⟨hiN, h⟩, if_pos h]
        · rw [if_neg (fun hc => h hc.2), if_neg h]
      have hSj : ∀ c, (find_points_in_cell c (placeRun (cellsList pts cs)).1
          (countRun (cellsList pts cs)) (placeRun (cellsList pts cs)).2).count (j : ℤ)
          = if (cellsList pts cs).getD j 0 = c then 1 else 0 := by
        intro c
        rw [hcountS j c]
        by_cases h : (cellsList pts cs).getD j 0 = c
        · rw [if_pos ⟨hjN, h⟩, if_pos h]
        · rw [if_neg (fun hc => h hc.2), if_neg h]
      by_cases hAB : (cellsList pts cs).getD i 0 = (cellsList pts cs).getD j 0
      · -- same cell: the pair comes from the intra-cell double loop, once
        have hnceq : normCoord pts cs (pts.getD i []) = normCoord pts cs (pts.getD j []) := by
          refine mixedRadix_inj (interior_fullBox hIi) (interior_fullBox hIj) ?_
          rw [← hAenc, ← hBenc, hAB]
        have hcheb : chebDist (cellOf cs (pts.getD i [])) (cellOf cs (pts.getD j [])) ≤ 1 := by
          rw [cheb_iff_unit cs hne hrect hri hrj]
          intro x hx
          rcases (mem_zipWith_getD (by
            rw [normCoord_length cs hne hrect hrj, normCoord_length cs hne hrect hri])).mp hx
            with ⟨d, hd, rfl⟩
          rw [hnceq]
          omega
        rw [if_pos ⟨hjN, hcheb⟩]
        have hcross0 : ∀ (x y : ℕ),
            (cellsList pts cs).getD x 0 = (cellsList pts cs).getD i 0 →
            (cellsList pts cs).getD y 0 = (cellsList pts cs).getD i 0 → ∀ c : ℤ,
            ((neighboring_cells (gridShape pts cs) 1).map (fun o =>
              (find_points_in_cell c (placeRun (cellsList pts cs)).1
                (countRun (cellsList pts cs)) (placeRun (cellsList pts cs)).2).count (x : ℤ)
              * (find_points_in_cell (c + o) (placeRun (cellsList pts cs)).1
                  (countRun (cellsList pts cs)) (placeRun (cellsList pts cs)).2).count (y : ℤ))).sum
            = 0 := by
          intro x y hx hy c
          refine List.sum_eq_zero ?_
          intro v hv
          rcases List.mem_map.mp hv with ⟨o, ho, rfl⟩
          rw [hcountS x c, hcountS y (c + o)]
          by_cases h1 : x < pts.length ∧ (cellsList pts cs).getD x 0 = c
          · by_cases h2 : y < pts.length ∧ (cellsList pts cs).getD y 0 = c + o
            · exfalso
              have hco : c + o = c := by
                rw [← h2.2, hy, ← hx, h1.2]
              exact offsets_ne_zero h3 ho (by omega)
            · rw [if_neg h2, Nat.mul_zero]
          · rw [if_neg h1, Nat.zero_mul]
        have hintra : ∀ c : ℤ,
            (intra (find_points_in_cell c (placeRun (cellsList pts cs)).1
              (countRun (cellsList pts cs)) (placeRun (cellsList pts cs)).2)).count
                ((i : ℤ), (j : ℤ))
            + (intra (find_points_in_cell c (placeRun (cellsList pts cs)).1
                (countRun (cellsList pts cs)) (placeRun (cellsList pts cs)).2)).count
                  ((j : ℤ), (i : ℤ))
            = if c = (cellsList pts cs).getD i 0 then 1 else 0 := by
          intro c
          by_cases hc : c = (cellsList pts cs).getD i 0
          · rw [if_pos hc]
            refine intra_count_pair (slice_nodup _ hnn c) ?_ ?_ ?_
            · intro hcon
              have : i = j := by exact_mod_cast hcon
              omega
            · exact (hmemS i c).mpr ⟨hiN, hc.symm⟩
            · exact (hmemS j c).mpr ⟨hjN, by rw [← hAB, hc]⟩
          · rw [if_neg hc]
            have hnoti : ((i : ℤ)) ∉ find_points_in_cell c (placeRun (cellsList pts cs)).1
                (countRun (cellsList pts cs)) (placeRun (cellsList pts cs)).2 := by
              intro hcon
              exact hc ((hmemS i c).mp hcon).2.symm
            rw [intra_count_left_not hnoti, intra_count_right_not hnoti]
        have hmap1 : ∀ (x y : ℕ),
            (cellsList pts cs).getD x 0 = (cellsList pts cs).getD i 0 →
            (cellsList pts cs).getD y 0 = (cellsList pts cs).getD i 0 →
            (((List.range (gridSize pts cs).toNat).map (fun (k : ℕ) => (k : ℤ))).map (fun c =>
              (intra (find_points_in_cell c (placeRun (cellsList pts cs)).1
                (countRun (cellsList pts cs)) (placeRun (cellsList pts cs)).2)).count
                  ((x : ℤ), (y : ℤ))
              + ((neighboring_cells (gridShape pts cs) 1).map (fun o =>
                  (find_points_in_cell c (placeRun (cellsList pts cs)).1
                    (countRun (cellsList pts cs)) (placeRun (cellsList pts cs)).2).count (x : ℤ)
                  * (find_points_in_cell (c + o) (placeRun (cellsList pts cs)).1
                      (countRun (cellsList pts cs)) (placeRun (cellsList pts cs)).2).count
                        (y : ℤ))).sum))
            = ((List.range (gridSize pts cs).toNat).map (fun (k : ℕ) => (k : ℤ))).map (fun c =>
                (intra (find_points_in_cell c (placeRun (cellsList pts cs)).1
                  (countRun (cellsList pts cs)) (placeRun (cellsList pts cs)).2)).count
                    ((x : ℤ), (y : ℤ))) := by
          intro x y hx hy
          refine List.map_congr_left fun c _ => ?_
          rw [hcross0 x y hx hy c]
          omega
        rw [hmap1 i j rfl hAB.symm, hmap1 j i hAB.symm rfl]
        rw [← sum_map_add]
        rw [List.map_congr_left (fun c _ => hintra c)]
        exact sum_map_cast_pick _ _ hA0.1 (by omega) (fun _ => 1)
      · -- different cells: only the half-offset cross product can emit
        have hintra0 : ∀ c : ℤ,
            (intra (find_points_in_cell c (placeRun (cellsList pts cs)).1
              (countRun (cellsList pts cs)) (placeRun (cellsList pts cs)).2)).count
                ((i : ℤ), (j : ℤ)) = 0
            ∧ (intra (find_points_in_cell c (placeRun (cellsList pts cs)).1
                (countRun (cellsList pts cs)) (placeRun (cellsList pts cs)).2)).count
                  ((j : ℤ), (i : ℤ)) = 0 := by
          intro c
          by_cases hci : (cellsList pts cs).getD i 0 = c
          · have hjnot : ((j : ℤ)) ∉ find_points_in_cell c (placeRun (cellsList pts cs)).1
                (countRun (cellsList pts cs)) (placeRun (cellsList pts cs)).2 := by
              intro hcon
              exact hAB (by rw [hci, ((hmemS j c).mp hcon).2])
            exact ⟨intra_count_right_not hjnot _, intra_count_left_not hjnot _⟩
          · have hinot : ((i : ℤ)) ∉ find_points_in_cell c (placeRun (cellsList pts cs)).1
                (countRun (cellsList pts cs)) (placeRun (cellsList pts cs)).2 := by
              intro hcon
              exact hci ((hmemS i c).mp hcon).2
            exact ⟨intra_count_left_not hinot _, intra_count_right_not hinot _⟩
        have hcross : ∀ (x y : ℕ), x < pts.length → y < pts.length → ∀ c : ℤ,
            ((neighboring_cells (gridShape pts cs) 1).map (fun o =>
              (find_points_in_cell c (placeRun (cellsList pts cs)).1
                (countRun (cellsList pts cs)) (placeRun (cellsList pts cs)).2).count (x : ℤ)
              * (find_points_in_cell (c + o) (placeRun (cellsList pts cs)).1
                  (countRun (cellsList pts cs)) (placeRun (cellsList pts cs)).2).count
                    (y : ℤ))).sum
            = if c = (cellsList pts cs).getD x 0
              then (neighboring_cells (gridShape pts cs) 1).count
                ((cellsList pts cs).getD y 0 - (cellsList pts cs).getD x 0)
              else 0 := by
          intro x y hxN hyN c
          by_cases hc : c = (cellsList pts cs).getD x 0
          · rw [if_pos hc]
            have hstep : ((neighboring_cells (gridShape pts cs) 1).map (fun o =>
                (find_points_in_cell c (placeRun (cellsList pts cs)).1
                  (countRun (cellsList pts cs)) (placeRun (cellsList pts cs)).2).count (x : ℤ)
                * (find_points_in_cell (c + o) (placeRun (cellsList pts cs)).1
                    (countRun (cellsList pts cs)) (placeRun (cellsList pts cs)).2).count
                      (y : ℤ)))
                = (neighboring_cells (gridShape pts cs) 1).map (fun o =>
                    if o = (cellsList pts cs).getD y 0 - (cellsList pts cs).getD x 0
                    then 1 else 0) := by
              refine List.map_congr_left fun o _ => ?_
              rw [hcountS x c, if_pos ⟨hxN, hc.symm⟩, Nat.one_mul, hcountS y (c + o)]
              by_cases h2 : o = (cellsList pts cs).getD y 0 - (cellsList pts cs).getD x 0
              · rw [if_pos ⟨hyN, by omega⟩, if_pos h2]
              · rw [if_neg ?_, if_neg h2]
                intro hcon
                exact h2 (by omega)
            rw [hstep, count_as_sum]
          · rw [if_neg hc]
            refine List.sum_eq_zero ?_
            intro v hv
            rcases List.mem_map.mp hv with ⟨o, _, rfl⟩
            rw [hcountS x c, if_neg (fun hcon => hc hcon.2.symm), Nat.zero_mul]
        have hS1 : (((List.range (gridSize pts cs).toNat).map (fun (k : ℕ) => (k : ℤ))).map (fun c =>
            (intra (find_points_in_cell c (placeRun (cellsList pts cs)).1
              (countRun (cellsList pts cs)) (placeRun (cellsList pts cs)).2)).count
                ((i : ℤ), (j : ℤ))
            + ((neighboring_cells (gridShape pts cs) 1).map (fun o =>
                (find_points_in_cell c (placeRun (cellsList pts cs)).1
                  (countRun (cellsList pts cs)) (placeRun (cellsList pts cs)).2).count (i : ℤ)
                * (find_points_in_cell (c + o) (placeRun (cellsList pts cs)).1
                    (countRun (cellsList pts cs)) (placeRun (cellsList pts cs)).2).count
                      (j : ℤ))).sum)).sum
            = (neighboring_cells (gridShape pts cs) 1).count
                ((cellsList pts cs).getD j 0 - (cellsList pts cs).getD i 0) := by
          have hstep : (((List.range (gridSize pts cs).toNat).map (fun (k : ℕ) => (k : ℤ))).map (fun c =>
              (intra (find_points_in_cell c (placeRun (cellsList pts cs)).1
                (countRun (cellsList pts cs)) (placeRun (cellsList pts cs)).2)).count
                  ((i : ℤ), (j : ℤ))
              + ((neighboring_cells (gridShape pts cs) 1).map (fun o =>
                  (find_points_in_cell c (placeRun (cellsList pts cs)).1
                    (countRun (cellsList pts cs)) (placeRun (cellsList pts cs)).2).count (i : ℤ)
                  * (find_points_in_cell (c + o) (placeRun (cellsList pts cs)).1
                      (countRun (cellsList pts cs)) (placeRun (cellsList pts cs)).2).count
                        (j : ℤ))).sum))
              = ((List.range (gridSize pts cs).toNat).map (fun (k : ℕ) => (k : ℤ))).map (fun c =>
                  if c = (cellsList pts cs).getD i 0
                  then (neighboring_cells (gridShape pts cs) 1).count
                    ((cellsList pts cs).getD j 0 - (cellsList pts cs).getD i 0)
                  else 0) := by
            refine List.map_congr_left fun c _ => ?_
            rw [(hintra0 c).1, hcross i j hiN hjN c]
            omega
          rw [hstep]
          exact sum_map_cast_pick _ _ hA0.1 (by omega) _
        have hS2 : (((List.range (gridSize pts cs).toNat).map (fun (k : ℕ) => (k : ℤ))).map (fun c =>
            (intra (find_points_in_cell c (placeRun (cellsList pts cs)).1
              (countRun (cellsList pts cs)) (placeRun (cellsList pts cs)).2)).count
                ((j : ℤ), (i : ℤ))
            + ((neighboring_cells (gridShape pts cs) 1).map (fun o =>
                (find_points_in_cell c (placeRun (cellsList pts cs)).1
                  (countRun (cellsList pts cs)) (placeRun (cellsList pts cs)).2).count (j : ℤ)
                * (find_points_in_cell (c + o) (placeRun (cellsList pts cs)).1
                    (countRun (cellsList pts cs)) (placeRun (cellsList pts cs)).2).count
                      (i : ℤ))).sum)).sum
            = (neighboring_cells (gridShape pts cs) 1).count
                ((cellsList pts cs).getD i 0 - (cellsList pts cs).getD j 0) := by
          have hstep : (((List.range (gridSize pts cs).toNat).map (fun (k : ℕ) => (k : ℤ))).map (fun c =>
              (intra (find_points_in_cell c (placeRun (cellsList pts cs)).1
                (countRun (cellsList pts cs)) (placeRun (cellsList pts cs)).2)).count
                  ((j : ℤ), (i : ℤ))
              + ((neighboring_cells (gridShape pts cs) 1).map (fun o =>
                  (find_points_in_cell c (placeRun (cellsList pts cs)).1
                    (countRun (cellsList pts cs)) (placeRun (cellsList pts cs)).2).count (j : ℤ)
                  * (find_points_in_cell (c + o) (placeRun (cellsList pts cs)).1
                      (countRun (cellsList pts cs)) (placeRun (cellsList pts cs)).2).count
                        (i : ℤ))).sum))
              = ((List.range (gridSize pts cs).toNat).map (fun (k : ℕ) => (k : ℤ))).map (fun c =>
                  if c = (cellsList pts cs).getD j 0
                  then (neighboring_cells (gridShape pts cs) 1).count
                    ((cellsList pts cs).getD i 0 - (cellsList pts cs).getD j 0)
                  else 0) := by
            refine List.map_congr_left fun c _ => ?_
            rw [(hintra0 c).2, hcross j i hjN hiN c]
            omega
          rw [hstep]
          exact sum_map_cast_pick _ _ hB0.1 (by omega) _
        rw [hS1, hS2]
        have hIc1 : (neighboring_cells (gridShape pts cs) 1).count
            ((cellsList pts cs).getD j 0 - (cellsList pts cs).getD i 0)
            = if List.zipWith (· - ·) (normCoord pts cs (pts.getD j []))
                (normCoord pts cs (pts.getD i [])) ∈ halfTail (gridShape pts cs).length 1
              then 1 else 0 := by
          rw [hAenc, hBenc]
          exact offsets_count h3 hIi hIj
        have hIc2 : (neighboring_cells (gridShape pts cs) 1).count
            ((cellsList pts cs).getD i 0 - (cellsList pts cs).getD j 0)
            = if List.zipWith (· - ·) (normCoord pts cs (pts.getD i []))
                (normCoord pts cs (pts.getD j [])) ∈ halfTail (gridShape pts cs).length 1
              then 1 else 0 := by
          rw [hAenc, hBenc]
          exact offsets_count h3 hIj hIi
        rw [hIc1, hIc2, hgsl]
        have hmapneg : (List.zipWith (· - ·) (normCoord pts cs (pts.getD j []))
            (normCoord pts cs (pts.getD i []))).map (fun x => -x)
            = List.zipWith (· - ·) (normCoord pts cs (pts.getD i []))
              (normCoord pts cs (pts.getD j [])) := map_neg_sub
        rw [← hmapneg]
        have hlni : (normCoord pts cs (pts.getD i [])).length = D :=
          normCoord_length cs hne hrect hri
        have hlnj : (normCoord pts cs (pts.getD j [])).length = D :=
          normCoord_length cs hne hrect hrj
        by_cases hcheb : chebDist (cellOf cs (pts.getD i [])) (cellOf cs (pts.getD j [])) ≤ 1
        · have hcond : j < pts.length ∧
              chebDist (cellOf cs (pts.getD i [])) (cellOf cs (pts.getD j [])) ≤ 1 := ⟨hjN, hcheb⟩
          rw [if_pos hcond]
          have hu : UnitBox (List.zipWith (· - ·) (normCoord pts cs (pts.getD j []))
              (normCoord pts cs (pts.getD i []))) :=
            (cheb_iff_unit cs hne hrect hri hrj).mp hcheb
          have hlenΔ : (List.zipWith (· - ·) (normCoord pts cs (pts.getD j []))
              (normCoord pts cs (pts.getD i []))).length = D := by
            rw [List.length_zipWith, hlni, hlnj]
            omega
          have hprod : List.zipWith (· - ·) (normCoord pts cs (pts.getD j []))
              (normCoord pts cs (pts.getD i [])) ∈ prodAll D 1 := by
            refine mem_prodAll.mpr ⟨hlenΔ, ?_⟩
            intro x hx
            have := hu x hx
            push_cast
            omega
          have hne0 : List.zipWith (· - ·) (normCoord pts cs (pts.getD j []))
              (normCoord pts cs (pts.getD i [])) ≠ List.replicate D 0 := by
            intro h0
            have hnceq : normCoord pts cs (pts.getD i []) = normCoord pts cs (pts.getD j []) := by
              refine sub_zero_imp_eq (by omega) ?_
              rw [h0, hlni]
            exact hAB (by rw [hAenc, hBenc, hnceq])
          have hone := halfTail_one_rep hprod hne0
          by_cases hmem : List.zipWith (· - ·) (normCoord pts cs (pts.getD j []))
              (normCoord pts cs (pts.getD i [])) ∈ halfTail D 1
          · rw [if_pos hmem, if_neg (hone.mp hmem)]
          · have hmemneg : (List.zipWith (· - ·) (normCoord pts cs (pts.getD j []))
                (normCoord pts cs (pts.getD i []))).map (fun x => -x) ∈ halfTail D 1 := by
              by_contra hneg
              exact hmem (hone.mpr hneg)
            rw [if_neg hmem, if_pos hmemneg]
        · have hncond : ¬ (j < pts.length ∧
              chebDist (cellOf cs (pts.getD i [])) (cellOf cs (pts.getD j [])) ≤ 1) :=
            fun hc => hcheb hc.2
          rw [if_neg hncond]
          have hnu : ¬ UnitBox (List.zipWith (· - ·) (normCoord pts cs (pts.getD j []))
              (normCoord pts cs (pts.getD i []))) :=
            fun hu => hcheb ((cheb_iff_unit cs hne hrect hri hrj).mpr hu)
          have hns1 : List.zipWith (· - ·) (normCoord pts cs (pts.getD j []))
              (normCoord pts cs (pts.getD i [])) ∉ halfTail D 1 :=
            fun hmem => hnu (halfTail_unit hmem).2
          have hns2 : (List.zipWith (· - ·) (normCoord pts cs (pts.getD j []))
              (normCoord pts cs (pts.getD i []))).map (fun x => -x) ∉ halfTail D 1 := by
            intro hmem
            have hun := (halfTail_unit hmem).2
            refine hnu ?_
            intro x hx
            have := hun (-x) (List.mem_map_of_mem _ hx)
            omega
          rw [if_neg hns1, if_neg hns2]
    · -- j is not a point index: nothing is ever emitted for this pair
      rw [if_neg (fun hc => hjN hc.1)]
      have hjnot : ∀ c : ℤ, ((j : ℤ)) ∉ find_points_in_cell c (placeRun (cellsList pts cs)).1
          (countRun (cellsList pts cs)) (placeRun (cellsList pts cs)).2 :=
        fun c hcon => hjN ((hmemS j c).mp hcon).1
      have hz1 : ∀ c : ℤ,
          (intra (find_points_in_cell c (placeRun (cellsList pts cs)).1
            (countRun (cellsList pts cs)) (placeRun (cellsList pts cs)).2)).count
              ((i : ℤ), (j : ℤ))
          + ((neighboring_cells (gridShape pts cs) 1).map (fun o =>
              (find_points_in_cell c (placeRun (cellsList pts cs)).1
                (countRun (cellsList pts cs)) (placeRun (cellsList pts cs)).2).count (i : ℤ)
              * (find_points_in_cell (c + o) (placeRun (cellsList pts cs)).1
                  (countRun (cellsList pts cs)) (placeRun (cellsList pts cs)).2).count
                    (j : ℤ))).sum = 0 := by
        intro c
        rw [intra_count_right_not (hjnot c), Nat.zero_add]
        refine List.sum_eq_zero ?_
        intro v hv
        rcases List.mem_map.mp hv with ⟨o, _, rfl⟩
        rw [List.count_eq_zero.mpr (hjnot (c + o)), Nat.mul_zero]
      have hz2 : ∀ c : ℤ,
          (intra (find_points_in_cell c (placeRun (cellsList pts cs)).1
            (countRun (cellsList pts cs)) (placeRun (cellsList pts cs)).2)).count
              ((j : ℤ), (i : ℤ))
          + ((neighboring_cells (gridShape pts cs) 1).map (fun o =>
              (find_points_in_cell c (placeRun (cellsList pts cs)).1
                (countRun (cellsList pts cs)) (placeRun (cellsList pts cs)).2).count (j : ℤ)
              * (find_points_in_cell (c + o) (placeRun (cellsList pts cs)).1
                  (countRun (cellsList pts cs)) (placeRun (cellsList pts cs)).2).count
                    (i : ℤ))).sum = 0 := by
        intro c
        rw [intra_count_left_not (hjnot c), Nat.zero_add]
        refine List.sum_eq_zero ?_
        intro v hv
        rcases List.mem_map.mp hv with ⟨o, _, rfl⟩
        rw [List.count_eq_zero.mpr (hjnot c), Nat.zero_mul]
      rw [sum_map_cast_zero _ _ hz1, sum_map_cast_zero _ _ hz2]
  · -- no reflexive pair is ever yielded
    intro x
    rw [hiterEq]
    refine sum_map_cast_zero _ _ ?_
    intro c
    rw [intra_count_diag (slice_nodup _ hnn c) x, Nat.zero_add]
    refine List.sum_eq_zero ?_
    intro v hv
    rcases List.mem_map.mp hv with ⟨o, ho, rfl⟩
    by_cases h1 : (find_points_in_cell c (placeRun (cellsList pts cs)).1
        (countRun (cellsList pts cs)) (placeRun (cellsList pts cs)).2).count x = 0
    · rw [h1, Nat.zero_mul]
    · have hmem1 : x ∈ find_points_in_cell c (placeRun (cellsList pts cs)).1
          (countRun (cellsList pts cs)) (placeRun (cellsList pts cs)).2 :=
        List.count_pos_iff.mp (Nat.pos_of_ne_zero h1)
      rcases (mem_slice hnn c x).mp hmem1 with ⟨k, hk, hkc, rfl⟩
      have h2 : ((k : ℤ)) ∉ find_points_in_cell (c + o) (placeRun (cellsList pts cs)).1
          (countRun (cellsList pts cs)) (placeRun (cellsList pts cs)).2 := by
        intro hcon
        rcases (mem_slice hnn (c + o) _).mp hcon with ⟨k', hk', hkc', hkk⟩
        have hkeq : k' = k := by exact_mod_cast hkk.symm
        subst hkeq
        exact offsets_ne_zero h3 ho (by omega)
      rw [List.count_eq_zero.mpr h2, Nat.mul_zero]

/-! ## Claim-level theorems -/

/-- Under the preconditions (positive cell size, at least one row, at least
one coordinate per row, rectangular input), `add_to_cells` succeeds and
returns exactly the placement result, the counts, the decremented offsets and
the padded grid shape. -/
theorem add_to_cells_ok {pts : List (List ℚ)} {cs : ℚ} {D : ℕ} (hcs : 0 < cs)
    (hne : pts ≠ []) (hD : 1 ≤ D) (hrect : ∀ r ∈ pts, r.length = D) :
    add_to_cells pts cs
      = .ok ⟨(placed pts cs).1, countsF pts cs, (placed pts cs).2, gridShape pts cs⟩ := by
  have hh : (pts.headD []).length = D := hrect _ (headD_mem hne)
  unfold add_to_cells
  rw [if_neg (by simpa using hcs), if_neg hne, if_neg (by omega)]

/-- C1: over all cell indices with the radius-1 offsets, the enumeration
emits every unordered pair of distinct point indices whose cells are equal or
Chebyshev-adjacent within the radius exactly once (in exactly one of the two
orders), emits no other pair, and never emits a reflexive pair. -/
theorem claim_C1 {pts : List (List ℚ)} (cs : ℚ) {D : ℕ} (hne : pts ≠ [])
    (hrect : ∀ r ∈ pts, r.length = D) :
    (∀ i j : ℕ, i < j →
      (builtPairs pts cs).count ((i : ℤ), (j : ℤ))
        + (builtPairs pts cs).count ((j : ℤ), (i : ℤ))
        = if j < pts.length ∧
            chebDist (cellOf cs (pts.getD i [])) (cellOf cs (pts.getD j [])) ≤ 1
          then 1 else 0) ∧
    (∀ x : ℤ, (builtPairs pts cs).count (x, x) = 0) :=
  pair_count_core cs hne hrect

theorem claim_C1_witness :
    (([[(0 : ℚ)]] : List (List ℚ)) ≠ [] ∧
      (∀ r ∈ ([[(0 : ℚ)]] : List (List ℚ)), r.length = 1)) ∧
    (∀ x : ℤ, (builtPairs [[(0 : ℚ)]] 1).count (x, x) = 0) :=
  ⟨⟨by decide, by decide⟩, (@claim_C1 [[(0 : ℚ)]] 1 1 (by decide) (by decide)).2⟩

/-- C5: the code computes each per-dimension cell coordinate with
`np.int64(coord / cell_size)` — truncation toward zero — not the
`floor(coord / cell_size)` that the claim (and the module docstring)
prescribe.  The two differ on negative non-integer quotients: at coordinate
`-1/2` with `cell_size = 1` the code produces cell coordinate `0` while the
floor is `-1`, and consequently the points `(-1/2, 0)` and `(1/2, 0)` — in
different floor cells — are assigned the same cell id. -/
theorem claim_C5 :
    cellIndexOf 1 (mkRat (-1) 2) = 0 ∧
    cellFloorOf 1 (mkRat (-1) 2) = -1 ∧
    cellIndexOf 1 (mkRat (-1) 2) ≠ cellFloorOf 1 (mkRat (-1) 2) ∧
    cellsList [[mkRat (-1) 2, 0], [mkRat 1 2, 0]] 1
      = cellsList [[mkRat 1 2, 0], [mkRat 1 2, 0]] 1 := by
  decide

/-- C9: on the four points `[(0,0), (0.1,0), (2,2), (2.1,2)]` with
`cell_size = 1` and `radius = 1`, the build succeeds with grid shape `[5,5]`
and counts summing to `4`, and the full enumeration yields exactly the
intra-cell pair of points 0 and 1 and the intra-cell pair of points 2 and 3
(each emitted with the later-placed point first), with no cross-cell pairs. -/
theorem claim_C9 :
    demoRun = some ([5, 5], 4, [(1, 0), (3, 2)]) := by
  decide

/-- The counts returned by a successful build sum to the number of points. -/
theorem countsF_sum_eq {pts : List (List ℚ)} (cs : ℚ) {D : ℕ} (hne : pts ≠ [])
    (hrect : ∀ r ∈ pts, r.length = D) :
    (∑ l in Finset.range (gridSize pts cs).toNat, countsF pts cs (l : ℤ))
      = (pts.length : ℤ) := by
  have h1 : ∀ l ∈ Finset.range (gridSize pts cs).toNat,
      countsF pts cs (l : ℤ) = ccI (cellsList pts cs) (l : ℤ) :=
    fun l _ => countRun_eq _ _
  rw [Finset.sum_congr rfl h1]
  unfold ccI
  rw [← Nat.cast_sum, sum_count_range (cellsList pts cs) (cells_range cs hne hrect),
    cellsList_length]

/-- C2: on every successful build, the counts sum to the number of points,
`points_indices` restricted to `0..N-1` is a permutation of the point
indices, and each cell's slice of `points_indices` holds exactly (once each)
the indices of the points whose computed cell id is that cell. -/
theorem claim_C2 {pts : List (List ℚ)} {cs : ℚ} {D : ℕ} (hcs : 0 < cs)
    (hne : pts ≠ []) (hD : 1 ≤ D) (hrect : ∀ r ∈ pts, r.length = D) {g : CellGrid}
    (hok : add_to_cells pts cs = .ok g) :
    (∑ l in Finset.range (gridSize pts cs).toNat, g.cells_count (l : ℤ))
        = (pts.length : ℤ) ∧
    ((List.range pts.length).map (fun (k : ℕ) => g.points_indices (k : ℤ))).Perm
      ((List.range pts.length).map (fun (k : ℕ) => (k : ℤ))) ∧
    (∀ c : ℤ, ∀ k : ℕ,
      (find_points_in_cell c g.points_indices g.cells_count g.cells_offset).count ((k : ℤ))
        = if k < pts.length ∧ (cellsList pts cs).getD k 0 = c then 1 else 0) := by
  have hg : g = ⟨(placed pts cs).1, countsF pts cs, (placed pts cs).2, gridShape pts cs⟩ :=
    Except.ok.inj (hok.symm.trans (add_to_cells_ok hcs hne hD hrect))
  subst hg
  refine ⟨countsF_sum_eq cs hne hrect, ?_, ?_⟩
  · have hperm := point_order_perm (cellsList pts cs) (cells_range cs hne hrect)
    rw [cellsList_length] at hperm
    exact hperm
  · intro c k
    have h := slice_count (cellsList pts cs)
      (fun v hv => (cells_range cs hne hrect v hv).1) c k
    rw [cellsList_length] at h
    exact h

theorem claim_C2_witness :
    (0 < (1 : ℚ)) ∧
    (∑ l in Finset.range (gridSize [[(0 : ℚ)]] 1).toNat,
        countsF [[(0 : ℚ)]] 1 (l : ℤ)) = ((([[(0 : ℚ)]] : List (List ℚ)).length : ℕ) : ℤ) :=
  ⟨by norm_num,
   (@claim_C2 [[(0 : ℚ)]] 1 1 (by norm_num) (by decide) (le_refl 1) (by decide)
      ⟨(placed [[(0 : ℚ)]] 1).1, countsF [[(0 : ℚ)]] 1, (placed [[(0 : ℚ)]] 1).2,
        gridShape [[(0 : ℚ)]] 1⟩ rfl).1⟩

/-- C3: on every successful build, adding any radius-1 neighbor offset to any
non-empty cell's index stays inside `[0, prod grid_shape)`, and the slice
bounds read for any such neighbor cell lie within `[0, N]`, so the
enumeration never reads out of bounds. -/
theorem claim_C3 {pts : List (List ℚ)} {cs : ℚ} {D : ℕ} (hcs : 0 < cs)
    (hne : pts ≠ []) (hD : 1 ≤ D) (hrect : ∀ r ∈ pts, r.length = D) {g : CellGrid}
    (hok : add_to_cells pts cs = .ok g) :
    ∀ c : ℤ, 0 ≤ c → c < gridSize pts cs → g.cells_count c ≠ 0 →
      ∀ o ∈ neighboring_cells g.grid_shape 1,
        (0 ≤ c + o ∧ c + o < gridSize pts cs) ∧
        (0 ≤ g.cells_offset (c + o) ∧
          g.cells_offset (c + o) + g.cells_count (c + o) ≤ (pts.length : ℤ)) := by
  have hg : g = ⟨(placed pts cs).1, countsF pts cs, (placed pts cs).2, gridShape pts cs⟩ :=
    Except.ok.inj (hok.symm.trans (add_to_cells_ok hcs hne hD hrect))
  subst hg
  intro c hc0 hcM hcc o ho
  have hnn : ∀ v ∈ cellsList pts cs, 0 ≤ v :=
    fun v hv => (cells_range cs hne hrect v hv).1
  have hcc' : ccI (cellsList pts cs) c ≠ 0 := by
    have he : countsF pts cs c = ccI (cellsList pts cs) c := countRun_eq _ _
    rw [← he]
    exact hcc
  have hmemc : c ∈ cellsList pts cs :=
    ccI_pos_mem (lt_of_le_of_ne (ccI_nonneg _ _) (Ne.symm hcc'))
  rcases List.mem_map.mp hmemc with ⟨r, hr, hrc⟩
  have ho' : o ∈ neighboring_cells (gridShape pts cs) 1 := ho
  rcases mem_neighboring.mp ho' with ⟨δ, hδ, hδo⟩
  have hu := halfTail_unit hδ
  have hI := normCoord_interior cs hne hrect hr
  have hlt : (normCoord pts cs r).length = (gridShape pts cs).length := interior_length hI
  have hFB : FullBox (List.zipWith (· + ·) (normCoord pts cs r) δ) (gridShape pts cs) :=
    interior_add_unit hI hu.2 (hu.1.trans hlt.symm)
  have henc : mixedRadix (gridShape pts cs) (List.zipWith (· + ·) (normCoord pts cs r) δ)
      = c + o := by
    rw [mixedRadix_add hlt (hu.1), hrc, hδo]
  have hrange := mixedRadix_range hFB
  rw [henc] at hrange
  have hco : 0 ≤ c + o ∧ c + o < gridSize pts cs := hrange
  refine ⟨hco, ?_, ?_⟩
  · show 0 ≤ (placeRun (cellsList pts cs)).2 (c + o)
    rw [(placeRun_spec (cellsList pts cs) hnn).1 (c + o)]
    rw [cumsumF_split (ccI (cellsList pts cs)) (c + o) hco.1]
    have : 0 ≤ ∑ k in Finset.range (c + o).toNat, ccI (cellsList pts cs) (k : ℤ) :=
      Finset.sum_nonneg (fun k _ => ccI_nonneg _ _)
    omega
  · show (placeRun (cellsList pts cs)).2 (c + o) + countsF pts cs (c + o)
      ≤ (pts.length : ℤ)
    rw [(placeRun_spec (cellsList pts cs) hnn).1 (c + o)]
    have he : countsF pts cs (c + o) = ccI (cellsList pts cs) (c + o) := countRun_eq _ _
    rw [he]
    have h1 : cumsumF (ccI (cellsList pts cs)) (c + o)
        ≤ ∑ k in Finset.range (gridSize pts cs).toNat, ccI (cellsList pts cs) (k : ℤ) := by
      unfold cumsumF
      refine Finset.sum_le_sum_of_subset_of_nonneg ?_ (fun k _ _ => ccI_nonneg _ _)
      refine Finset.range_subset.mpr ?_
      omega
    have h2 : (∑ k in Finset.range (gridSize pts cs).toNat,
        ccI (cellsList pts cs) (k : ℤ)) = (pts.length : ℤ) := by
      have h3 : ∀ l ∈ Finset.range (gridSize pts cs).toNat,
          ccI (cellsList pts cs) (l : ℤ) = countsF pts cs (l : ℤ) :=
        fun l _ => (countRun_eq _ _).symm
      rw [Finset.sum_congr rfl h3]
      exact countsF_sum_eq cs hne hrect
    omega

theorem claim_C3_witness :
    (0 < (1 : ℚ)) ∧
    (∀ c : ℤ, 0 ≤ c → c < gridSize [[(0 : ℚ)]] 1 →
      countsF [[(0 : ℚ)]] 1 c ≠ 0 →
      ∀ o ∈ neighboring_cells (gridShape [[(0 : ℚ)]] 1) 1,
        (0 ≤ c + o ∧ c + o < gridSize [[(0 : ℚ)]] 1) ∧
        (0 ≤ (placed [[(0 : ℚ)]] 1).2 (c + o) ∧
          (placed [[(0 : ℚ)]] 1).2 (c + o) + countsF [[(0 : ℚ)]] 1 (c + o)
            ≤ ((([[(0 : ℚ)]] : List (List ℚ)).length : ℕ) : ℤ))) :=
  ⟨by norm_num,
   @claim_C3 [[(0 : ℚ)]] 1 1 (by norm_num) (by decide) (le_refl 1) (by decide)
     ⟨(placed [[(0 : ℚ)]] 1).1, countsF [[(0 : ℚ)]] 1, (placed [[(0 : ℚ)]] 1).2,
       gridShape [[(0 : ℚ)]] 1⟩ rfl⟩

/-- C4: for any `grid_shape` and radius, the offsets are obtained by keeping
exactly the tuples strictly after the middle of the Cartesian-product
enumeration of `{-r..r}^D` (the middle element being the all-zero tuple) and
flattening each with the mixed-radix strides of `grid_shape`; there are
exactly `((2r+1)^D - 1) / 2` of them, and the kept tuples contain exactly
one representative of each `±`-symmetric pair of non-zero deltas. -/
theorem claim_C4 (gs : List ℤ) (r : ℕ) :
    (neighboring_cells gs r).length = ((2 * r + 1) ^ gs.length - 1) / 2 ∧
    neighboring_cells gs r
      = ((prodAll gs.length r).drop ((prodAll gs.length r).length / 2 + 1)).map
          (fun t => mixedRadix gs t) ∧
    (prodAll gs.length r).getD ((prodAll gs.length r).length / 2) []
      = List.replicate gs.length 0 ∧
    (∀ δ ∈ prodAll gs.length r, δ ≠ List.replicate gs.length 0 →
      (δ ∈ halfTail gs.length r ↔ δ.map (fun x => -x) ∉ halfTail gs.length r)) := by
  refine ⟨?_, rfl, prodAll_mid gs.length r, ?_⟩
  · unfold neighboring_cells
    rw [List.length_map, halfTail_length]
  · intro δ hδ hδ0
    exact halfTail_one_rep hδ hδ0

theorem claim_C4_witness :
    ([(1 : ℤ)] ∈ prodAll 1 1 ∧ [(1 : ℤ)] ≠ List.replicate 1 0) ∧
    ([(1 : ℤ)] ∈ halfTail 1 1 ↔ [(1 : ℤ)].map (fun x => -x) ∉ halfTail 1 1) :=
  ⟨⟨by decide, by decide⟩, (claim_C4 [3] 1).2.2.2 [(1 : ℤ)] (by decide) (by decide)⟩

/-- C7: the placement is *not* in increasing input order: within each cell's
block the point indices appear reversed (the loop walks the points forward
while filling each cell's block back-to-front), so the block equals the
*reversed* list of the input indices falling in that cell. -/
theorem claim_C7 {pts : List (List ℚ)} (cs : ℚ) {D : ℕ} (hne : pts ≠ [])
    (hrect : ∀ r ∈ pts, r.length = D) :
    ∀ c : ℤ,
      find_points_in_cell c (placed pts cs).1 (countsF pts cs) (placed pts cs).2
        = ((List.range pts.length).filter
            (fun k => (cellsList pts cs).getD k 0 = c)).reverse.map
              (fun (k : ℕ) => (k : ℤ)) := by
  intro c
  have h := find_points_spec (cellsList pts cs)
    (fun v hv => (cells_range cs hne hrect v hv).1) c
  rw [cellsList_length] at h
  exact h

theorem claim_C7_witness :
    (([[(0 : ℚ)]] : List (List ℚ)) ≠ [] ∧
      (∀ r ∈ ([[(0 : ℚ)]] : List (List ℚ)), r.length = 1)) ∧
    (∀ c : ℤ,
      find_points_in_cell c (placed [[(0 : ℚ)]] 1).1 (countsF [[(0 : ℚ)]] 1)
          (placed [[(0 : ℚ)]] 1).2
        = ((List.range ([[(0 : ℚ)]] : List (List ℚ)).length).filter
            (fun k => (cellsList [[(0 : ℚ)]] 1).getD k 0 = c)).reverse.map
              (fun (k : ℕ) => (k : ℤ))) :=
  ⟨⟨by decide, by decide⟩, @claim_C7 [[(0 : ℚ)]] 1 1 (by decide) (by decide)⟩

/-- Two coincident points land in the same cell; the block for that cell is
`[1, 0]` — the reverse of the input order `[0, 1]` — refuting the claimed
increasing-order (stable) placement. -/
theorem claim_C7_counterexample :
    find_points_in_cell 4 (placed [[(0 : ℚ), 0], [0, 0]] 1).1
        (countsF [[(0 : ℚ), 0], [0, 0]] 1) (placed [[(0 : ℚ), 0], [0, 0]] 1).2
      = [1, 0] ∧
    ((List.range 2).filter
        (fun k => (cellsList [[(0 : ℚ), 0], [0, 0]] 1).getD k 0 = 4)).map
          (fun (k : ℕ) => (k : ℤ)) = [0, 1] ∧
    ([1, 0] : List ℤ) ≠ [0, 1] := by
  decide

/-- C8: a non-positive `cell_size` does fail the assert, but an *empty*
points array passes the assert (`points.ndim == 2` holds for shape `(0, d)`)
and instead crashes out of bounds on the very first read `points[0, :]`: the
failure is an out-of-bounds access, not the claimed precondition error.  A
successful result still implies all three preconditions. -/
theorem claim_C8 (pts : List (List ℚ)) (cs : ℚ) :
    (¬ 0 < cs → add_to_cells pts cs = .error .assertionFailed) ∧
    (0 < cs → pts = [] → add_to_cells pts cs = .error .outOfBounds) ∧
    (∀ g : CellGrid, add_to_cells pts cs = .ok g →
      0 < cs ∧ pts ≠ [] ∧ (pts.headD []).length ≠ 0) := by
  refine ⟨?_, ?_, ?_⟩
  · intro hcs
    unfold add_to_cells
    rw [if_pos hcs]
  · intro hcs hptse
    subst hptse
    unfold add_to_cells
    rw [if_neg (by simpa using hcs)]
    rfl
  · intro g hok
    unfold add_to_cells at hok
    by_cases h1 : ¬ 0 < cs
    · rw [if_pos h1] at hok
      exact absurd hok (by simp)
    · rw [if_neg h1] at hok
      by_cases h2 : pts = []
      · rw [if_pos h2] at hok
        exact absurd hok (by simp)
      · rw [if_neg h2] at hok
        by_cases h3 : (pts.headD []).length = 0
        · rw [if_pos h3] at hok
          exact absurd hok (by simp)
        · exact ⟨not_not.mp h1, h2, h3⟩

theorem claim_C8_witness :
    (0 < (1 : ℚ) ∧ ([] : List (List ℚ)) = []) ∧
    add_to_cells [] 1 = .error .outOfBounds :=
  ⟨⟨by norm_num, rfl⟩, (claim_C8 [] 1).2.1 (by norm_num) rfl⟩

/-- The empty point array produces an out-of-bounds failure, which is a
different failure mode from the assertion (precondition) failure the claim
prescribes. -/
theorem claim_C8_counterexample :
    add_to_cells [] 1 = Except.error Err.outOfBounds ∧
    Err.outOfBounds ≠ Err.assertionFailed := by
  refine ⟨?_, by decide⟩
  unfold add_to_cells
  norm_num

/-- The cost-accumulation fold propagates `none`. -/
theorem costFold_go_none (cc neigh : List ℤ) :
    ∀ (l : List (ℕ × ℤ)),
      l.foldl (fun st p => st.bind (fun tic =>
        if p.2 = 0 then some tic
        else (crossSum cc p.1 p.2 neigh).map (fun s =>
          let t := tic.1 + (p.2 - 1) ^ 2 + s
          (t, tic.2.set p.1 t)))) (none : Option (ℤ × List ℤ)) = none := by
  intro l
  induction l with
  | nil => rfl
  | cons b l ih =>
    rw [List.foldl_cons, Option.none_bind]
    exact ih

/-- The cost-accumulation fold never changes the length of the cumulative-sum
array. -/
theorem costFold_go_length (cc neigh : List ℤ) :
    ∀ (l : List (ℕ × ℤ)) (st res : ℤ × List ℤ),
      l.foldl (fun st p => st.bind (fun tic =>
        if p.2 = 0 then some tic
        else (crossSum cc p.1 p.2 neigh).map (fun s =>
          let t := tic.1 + (p.2 - 1) ^ 2 + s
          (t, tic.2.set p.1 t)))) (some st) = some res →
      res.2.length = st.2.length := by
  intro l
  induction l with
  | nil =>
    intro st res h
    rw [List.foldl_nil] at h
    rw [← Option.some.inj h]
  | cons b l ih =>
    intro st res h
    rw [List.foldl_cons, Option.some_bind] at h
    by_cases hz : b.2 = 0
    · rw [if_pos hz] at h
      exact ih st res h
    · rw [if_neg hz] at h
      cases hcs : crossSum cc b.1 b.2 neigh with
      | none =>
        rw [hcs, Option.map_none'] at h
        exact absurd (h.symm.trans (costFold_go_none cc neigh l)) (by simp)
      | some v =>
        rw [hcs, Option.map_some'] at h
        have h2 := ih _ res h
        simpa using h2

/-- On success, `costFold` returns a cumulative-sum array of the same length
as `cells_count`. -/
theorem costFold_length {cc neigh : List ℤ} {g : ℕ → ℤ} {tic : ℤ × List ℤ}
    (h : costFold cc neigh g = some tic) : tic.2.length = cc.length := by
  unfold costFold at h
  have h2 := costFold_go_length cc neigh cc.enum _ tic h
  simpa using h2

/-- The boundary scan, when it succeeds, records exactly `n - p` strictly
increasing indices of the scanned list. -/
theorem scanGo_spec (size n : ℤ) :
    ∀ (l : List ℤ) (p : ℤ) (i : ℕ) (mids : List ℤ),
      scanGo size n p i l = some mids →
      mids.length = (n - p).toNat ∧
      (∀ m ∈ mids, (i : ℤ) ≤ m ∧ m < (i : ℤ) + l.length) ∧
      mids.Chain' (· < ·) := by
  intro l
  induction l with
  | nil =>
    intro p i mids h
    unfold scanGo at h
    by_cases hn : n ≤ p
    · rw [if_pos hn] at h
      rw [← Option.some.inj h]
      refine ⟨by simp only [List.length_nil]; omega, by simp, by simp⟩
    · rw [if_neg hn] at h
      exact absurd h (by simp)
  | cons c rest ih =>
    intro p i mids h
    unfold scanGo at h
    by_cases hn : n ≤ p
    · rw [if_pos hn] at h
      rw [← Option.some.inj h]
      refine ⟨by simp only [List.length_nil]; omega, by simp, by simp⟩
    · rw [if_neg hn] at h
      by_cases hc : c ≥ p * size
      · rw [if_pos hc] at h
        rcases Option.map_eq_some'.mp h with ⟨mids', hm', hmm⟩
        rcases ih (p + 1) (i + 1) mids' hm' with ⟨hlen, hbd, hch⟩
        subst hmm
        refine ⟨by simp; omega, ?_, ?_⟩
        · intro m hm
          rcases List.mem_cons.mp hm with hm | hm
          · subst hm
            constructor
            · omega
            · simp only [List.length_cons]
              push_cast
              omega
          · have := hbd m hm
            simp only [List.length_cons]
            push_cast at this ⊢
            omega
        · refine List.chain'_cons'.mpr ⟨?_, hch⟩
          intro y hy
          have hymem : y ∈ mids' := List.mem_of_mem_head? hy
          have := hbd y hymem
          push_cast at this
          omega
      · rw [if_neg hc] at h
        rcases ih p (i + 1) mids h with ⟨hlen, hbd, hch⟩
        refine ⟨hlen, ?_, hch⟩
        intro m hm
        have := hbd m hm
        simp only [List.length_cons]
        push_cast at this ⊢
        omega

/-- C6 (amended): *when `partition_cells` returns a result* (the boundary
scan can instead run past the end of the cumulative-sum array on degenerate
inputs, an out-of-bounds read modelled as `none`), the result has `n + 1`
entries, starts at `0`, ends at `len(cells_count)`, and is non-decreasing. -/
theorem claim_C6 {n : ℤ} {cc neigh : List ℤ} {g : ℕ → ℤ} {bs : List ℤ}
    (hok : partition_cells n cc neigh g = some bs) :
    bs.length = n.toNat + 1 ∧
    bs.headD 0 = 0 ∧
    bs.getLast? = some ((cc.length : ℕ) : ℤ) ∧
    bs.Chain' (· ≤ ·) := by
  unfold partition_cells at hok
  by_cases hn : n ≤ 0
  · rw [if_pos hn] at hok
    exact absurd hok (by simp)
  · rw [if_neg hn] at hok
    rcases Option.bind_eq_some.mp hok with ⟨tic, htic, hbs⟩
    rcases Option.map_eq_some'.mp hbs with ⟨mids, hmids, hbs'⟩
    subst hbs'
    have hticlen : tic.2.length = cc.length := costFold_length htic
    rcases scanGo_spec (ceilDiv tic.1 n) n tic.2 1 0 mids hmids with ⟨hlen, hbd, hch⟩
    have hbd' : ∀ m ∈ mids, 0 ≤ m ∧ m < (cc.length : ℤ) := by
      intro m hm
      have := hbd m hm
      rw [hticlen] at this
      simpa using this
    have hpw : mids.Pairwise (· < ·) := List.chain'_iff_pairwise.mp hch
    refine ⟨?_, ?_, ?_, ?_⟩
    · rw [List.length_append, List.length_cons, hlen]
      simp only [List.length_singleton]
      omega
    · rfl
    · rw [List.getLast?_concat]
    · rw [List.chain'_iff_pairwise, List.pairwise_append]
      refine ⟨?_, by simp, ?_⟩
      · rw [List.pairwise_cons]
        refine ⟨fun y hy => (hbd' y hy).1, hpw.imp (fun h => le_of_lt h)⟩
      · intro x hx y hy
        rw [List.mem_singleton.mp hy]
        rcases List.mem_cons.mp hx with hx | hx
        · subst hx
          positivity
        · exact le_of_lt (hbd' x hx).2

theorem claim_C6_witness :
    partition_cells 1 [(2 : ℤ)] [] (fun _ => 0) = some [0, 1] ∧
    (([0, 1] : List ℤ).length = (1 : ℤ).toNat + 1 ∧
      ([0, 1] : List ℤ).headD 0 = 0 ∧
      ([0, 1] : List ℤ).getLast? = some ((([(2 : ℤ)] : List ℤ).length : ℕ) : ℤ) ∧
      ([0, 1] : List ℤ).Chain' (· ≤ ·)) :=
  ⟨by decide, @claim_C6 1 [(2 : ℤ)] [] (fun _ => 0) [0, 1] (by decide)⟩

/-- With more parts than cells the boundary scan runs past the end of the
cumulative-sum array: an out-of-bounds read (`none`), refuting unconditional
termination with `n + 1` boundaries. -/
theorem claim_C6_counterexample :
    (0 : ℤ) < 3 ∧ partition_cells 3 [(2 : ℤ)] [] (fun _ => 0) = none := by
  decide

/-- C10 (amended): on `num_parts = 2`, `cell_counts = [0,3,0,2]`, no
neighbor offsets, the returned boundaries depend on the *uninitialized*
cumulative-sum entry of the skipped empty cell 0: garbage `0` gives
`[0, 1, 4]` and garbage `3` gives `[0, 0, 4]`.  The `[0, 1, 4]` split has
estimated range costs `1` and `6` under the claimed per-cell cost
`(n_c - 1)^2`, differing by `5`, which exceeds the largest single-cell cost
`4`: the claimed one-cell-cost balance bound fails. -/
theorem claim_C10 :
    partition_cells 2 [0, 3, 0, 2] [] (fun _ => 0) = some [0, 1, 4] ∧
    partition_cells 2 [0, 3, 0, 2] [] (fun _ => 3) = some [0, 0, 4] ∧
    intraCostSum [0, 3, 0, 2] 0 1 = 1 ∧
    intraCostSum [0, 3, 0, 2] 1 4 = 6 ∧
    ¬ (intraCostSum [0, 3, 0, 2] 1 4 - intraCostSum [0, 3, 0, 2] 0 1
        ≤ (([0, 3, 0, 2] : List ℤ).map (fun c => (c - 1) ^ 2)).foldr max 0) := by
  decide

/-- The returned boundary `b = 1` leaves estimated costs `1` and `6` on the
two sides — a difference of `5`, larger than any single cell's cost (at most
`4`) — refuting the claimed balance property. -/
theorem claim_C10_counterexample :
    partition_cells 2 [0, 3, 0, 2] [] (fun _ => 0) = some [0, 1, 4] ∧
    ¬ (intraCostSum [0, 3, 0, 2] 1 4 - intraCostSum [0, 3, 0, 2] 0 1 ≤ 4) := by
  decide

end CellLists
